import Mathlib

/-!
Shallow embedding of the `unification` package (files `unification/core.py` and
`unification/variable.py`): logic variables, substitutions, type-directed
unification and reification, and the groundness / free-variable utilities.

Modelling conventions:
* Python terms are modelled by the inductive type `Term`: opaque atoms carry a
  natural-number payload; logic variables (class `Var`) carry a token;
  tuples, lists, sets, dicts, slices and iterators are the compound shapes the
  algorithms dispatch on.  A set or dict is modelled by the list of its
  elements/items in iteration order.
* An iterator carries the value of `operator.length_hint(it, -1)` as an
  `Option Nat` (`none` models a hint of `-1`, e.g. a generator object) together
  with the sequence of values it will produce.
* Python `==` on the values the algorithms actually compare is modelled by the
  structural test `tbeq` (the dispatch tables send set/set and dict/dict pairs
  to their dedicated algorithms before `==` is ever consulted on them, so the
  extensional equality of Python sets/dicts is never needed; the identity
  fast path `u is v` of `unify` is approximated by `tbeq`, which agrees with
  the algorithmic path on the extra equal-but-not-identical inputs).
* Divergence (walking or reifying under a cyclic substitution, which the
  Python code does not guard against) and the `TypeError` raised when a
  reconstructed set or dict would contain an unhashable member are both
  modelled by `Option.none`; an actually returned value is `some`.
* The generator/deque trampoline `stream_eval` flattens the recursion of the
  `_reify`/`_unify` generators without changing their data flow, so the
  embedding is written as the equivalent direct recursion; the observer hooks
  of `unground_lvars` and `isground` (collect every produced value `r` with
  `isvar(r)`, abort a frame at `construction_sentinel`) are embedded as the
  traversals they perform.
-/

inductive Term where
  | atom : Nat → Term
  | var : Nat → Term
  | tuple : List Term → Term
  | list : List Term → Term
  | set : List Term → Term
  | map : List (Term × Term) → Term
  | slice : Term → Term → Term → Term
  | iterator : Option Nat → List Term → Term

mutual
/-- Python `==` restricted to the comparisons the algorithms perform
(structural equality of the modelled values). -/
def tbeq : Term → Term → Bool
  | .atom a, .atom b => a == b
  | .var a, .var b => a == b
  | .tuple as, .tuple bs => tbeqL as bs
  | .list as, .list bs => tbeqL as bs
  | .set as, .set bs => tbeqL as bs
  | .map as, .map bs => tbeqP as bs
  | .slice a b c, .slice a' b' c' => tbeq a a' && tbeq b b' && tbeq c c'
  | .iterator h as, .iterator h' bs => h == h' && tbeqL as bs
  | _, _ => false

def tbeqL : List Term → List Term → Bool
  | [], [] => true
  | a :: as, b :: bs => tbeq a b && tbeqL as bs
  | _, _ => false

def tbeqP : List (Term × Term) → List (Term × Term) → Bool
  | [], [] => true
  | (k, v) :: as, (k', v') :: bs => tbeq k k' && tbeq v v' && tbeqP as bs
  | _, _ => false
end

/-- A substitution: the Python `dict` mapping logic variables to terms,
modelled as an association list in binding order (most recent first). -/
def Subst := List (Term × Term)

/-- Python `k in s` / `s[k]` on a dict, deciding key equality with `==`. -/
def slookup (s : List (Term × Term)) (k : Term) : Option Term :=
  (s.find? (fun p => tbeq p.1 k)).map (·.2)

/-- `toolz.assoc s k v`: a fresh dict extending `s` with `k ↦ v`
(the original dict is not mutated; lookup prefers the new binding). -/
def assoc (s : Subst) (k v : Term) : Subst := (k, v) :: s

/-- Hashability of the modelled Python values: atoms, `Var`s, iterators
(identity-hashed objects) and tuples of hashables are hashable; lists, sets,
dicts and slices (Python < 3.12) are not. -/
def hashable : Term → Bool
  | .atom _ => true
  | .var _ => true
  | .tuple ts => goList ts
  | .iterator _ _ => true
  | .list _ => false
  | .set _ => false
  | .map _ => false
  | .slice _ _ _ => false
where
  goList : List Term → Bool
    | [] => true
    | t :: ts => hashable t && goList ts

/-- `isvar` from `unification/variable.py`, with the process-wide ad hoc
registry `_global_logic_variables` passed explicitly as `glv`.  The `Var`
dispatch returns `True`; the `object` dispatch runs `o in _glv` under
`suppress(TypeError)`, so an unhashable argument makes the function fall off
the end and return Python `None`, modelled as `Option.none`. -/
def isvar (glv : List Term) (t : Term) : Option Bool :=
  match t with
  | .var _ => some true
  | o => if hashable o then some (glv.any (fun g => tbeq o g)) else none

/-- Truthiness of an `isvar` result as Python evaluates it in a boolean
context (`None` is falsy). -/
def isvarB (glv : List Term) (t : Term) : Bool := (isvar glv t).getD false

/-- Modelled from the spec: `walk` (`transitive_get` in `unification/utils.py`)
is imported by `core.py` but its source is not part of this repository.
Spec section 4.1: if `x` is a Logic Variable bound in `s`, repeat the lookup on
the bound value until reaching a value that is either unbound (not a key of
`s`) or not a Logic Variable, and return that final value; this terminates
only on acyclic substitutions.  A terminating chain performs at most
`s.length` lookups (a repeated key would loop forever), so running the loop
with fuel `s.length + 1` and returning `none` on exhaustion models exactly
the diverging executions. -/
def walkGo (glv : List Term) (s : Subst) : Nat → Term → Option Term
  | fuel, t =>
    if isvarB glv t then
      match slookup s t with
      | some t' =>
        match fuel with
        | 0 => none
        | n + 1 => walkGo glv s n t'
      | none => some t
    else some t

/-- The chain-walking primitive at its canonical fuel. -/
def walk (glv : List Term) (s : Subst) (t : Term) : Option Term :=
  walkGo glv s (List.length s + 1) t

/-- One insertion into a freshly built Python `set`: duplicates (under `==`)
are dropped keeping the first occurrence, and an unhashable element raises
`TypeError` (modelled by `none`). -/
def setInsert (acc : List Term) (x : Term) : Option (List Term) :=
  if hashable x then
    some (if acc.any (fun y => tbeq y x) then acc else acc ++ [x])
  else none

def setCtorGo : List Term → List Term → Option (List Term)
  | acc, [] => some acc
  | acc, x :: xs =>
    match setInsert acc x with
    | none => none
    | some acc' => setCtorGo acc' xs

/-- The Python constructor `set(res)` applied to a list of elements. -/
def setCtor (l : List Term) : Option (List Term) := setCtorGo [] l

/-- One insertion into a freshly built Python `dict`: an existing key (under
`==`) keeps its position and key object but gets the new value; an unhashable
key raises `TypeError` (modelled by `none`). -/
def dictInsert (acc : List (Term × Term)) (k v : Term) :
    Option (List (Term × Term)) :=
  if hashable k then
    some
      (if acc.any (fun p => tbeq p.1 k) then
        acc.map (fun p => if tbeq p.1 k then (p.1, v) else p)
      else acc ++ [(k, v)])
  else none

def dictCtorGo : List (Term × Term) → List (Term × Term) →
    Option (List (Term × Term))
  | acc, [] => some acc
  | acc, (k, v) :: kvs =>
    match dictInsert acc k v with
    | none => none
    | some acc' => dictCtorGo acc' kvs

/-- The Python constructor `dict(res)` applied to a list of key/value pairs. -/
def dictCtor (l : List (Term × Term)) : Option (List (Term × Term)) :=
  dictCtorGo [] l

mutual
/-- `reify(e, s)` (= `stream_eval(_reify(e, s))`) from `unification/core.py`.
The dispatch of `_reify`: a `Var` is resolved with `walk` and, when the walk
moved (`o_w is o` fails), reified again — this indirection substitutes an
arbitrary term bound in `s`, so the recursion is not structural in the term
and is measured by `fuel` instead; the fuel is decremented at every step as a
pure termination device, `none` meaning that the fuel ran out (for every
execution the Python code completes, the result is `some` of it for all
sufficiently large fuel — see `reifyF_mono`; executions that diverge on a
cyclic substitution, or raise rebuilding a set/dict around an unhashable
member, are `none` at every fuel).  Every container shape reifies its members
left-to-right and reconstructs a value of the same shape (`iter(res)` on a
reified iterator gives a fresh iterator whose length hint is the length of
`res`; `dict` entries are reified as key/value tuples); anything else is
returned unchanged. -/
def reifyF (glv : List Term) : Nat → Subst → Term → Option Term
  | 0, _, _ => none
  | _ + 1, _, .atom a => some (.atom a)
  | fuel + 1, s, .var x =>
    match walk glv s (.var x) with
    | none => none
    | some w =>
      if tbeq w (.var x) then some (.var x)
      else reifyF glv fuel s w
  | fuel + 1, s, .tuple ts => (reifyL glv fuel s ts).map .tuple
  | fuel + 1, s, .list ts => (reifyL glv fuel s ts).map .list
  | fuel + 1, s, .iterator _ ts =>
    (reifyL glv fuel s ts).map (fun rs => .iterator (some rs.length) rs)
  | fuel + 1, s, .set ts =>
    (reifyL glv fuel s ts).bind (fun rs => (setCtor rs).map .set)
  | fuel + 1, s, .map kvs =>
    (reifyP glv fuel s kvs).bind (fun rs => (dictCtor rs).map .map)
  | fuel + 1, s, .slice a b c =>
    match reifyF glv fuel s a with
    | none => none
    | some a' =>
      match reifyF glv fuel s b with
      | none => none
      | some b' =>
        match reifyF glv fuel s c with
        | none => none
        | some c' => some (.slice a' b' c')

def reifyL (glv : List Term) : Nat → Subst → List Term → Option (List Term)
  | 0, _, _ => none
  | _ + 1, _, [] => some []
  | fuel + 1, s, t :: ts =>
    match reifyF glv fuel s t with
    | none => none
    | some r =>
      match reifyL glv fuel s ts with
      | none => none
      | some rs => some (r :: rs)

def reifyP (glv : List Term) : Nat → Subst → List (Term × Term) →
    Option (List (Term × Term))
  | 0, _, _ => none
  | _ + 1, _, [] => some []
  | fuel + 1, s, (k, v) :: kvs =>
    match reifyF glv fuel s k with
    | none => none
    | some k' =>
      match reifyF glv fuel s v with
      | none => none
      | some v' =>
        match reifyP glv fuel s kvs with
        | none => none
        | some rs => some ((k', v') :: rs)
end

/-- The result of `_unify`/`unify`: either the Python `False` failure marker
or a substitution dict. -/
inductive UR where
  | fail : UR
  | ok : Subst → UR

/-- `operator.length_hint(x, -1)` on the modelled sequence shapes. -/
def lenHint : Term → Int
  | .tuple ts => ts.length
  | .list ts => ts.length
  | .iterator (some n) _ => n
  | .iterator none _ => -1
  | _ => -1

mutual
/-- The `_unify` dispatch from `unification/core.py`.  A `Var` on either side
selects `_unify_Var_object` (symmetrically via `_unify_object_Var`); matching
sequence shapes select `_unify_Iterable` (compare `length_hint`s, then fold
pairwise unification over `zip(u, v)`); set/set partitions out the exact
intersection and unifies the residuals as (length-hinted) iterators; dict/dict
compares sizes and folds over the entries of `u`; slice/slice threads the
three fields; any other pair falls back to `s if u == v else False`.
The `fuel` is decremented at every step as a pure structural-termination
device; `none` means it ran out (every completing Python execution is `some`
of its result for all sufficiently large fuel, and executions that diverge
walking a cyclic substitution are `none` at every fuel). -/
def unifyCore (glv : List Term) : Nat → Term → Term → Subst → Option UR
  | 0, _, _, _ => none
  | fuel + 1, .var x, v, s => unifyVar glv fuel x v s
  | fuel + 1, u, .var x, s => unifyVar glv fuel x u s
  | fuel + 1, .tuple us, .tuple vs, s =>
    if lenHint (.tuple us) != lenHint (.tuple vs) then some .fail
    else unifyZip glv fuel us vs s
  | fuel + 1, .list us, .list vs, s =>
    if lenHint (.list us) != lenHint (.list vs) then some .fail
    else unifyZip glv fuel us vs s
  | fuel + 1, .iterator hu us, .iterator hv vs, s =>
    if lenHint (.iterator hu us) != lenHint (.iterator hv vs) then some .fail
    else unifyZip glv fuel us vs s
  | fuel + 1, .set us, .set vs, s =>
    -- `i = u & v; u = u - i; v = v - i; _unify(iter(u), iter(v), s)`;
    -- a CPython set iterator reports its remaining length as its hint.
    let us' := us.filter (fun x => !(vs.any (fun y => tbeq x y)))
    let vs' := vs.filter (fun y => !(us.any (fun x => tbeq x y)))
    if us'.length != vs'.length then some .fail
    else unifyZip glv fuel us' vs' s
  | fuel + 1, .map us, .map vs, s =>
    if us.length != vs.length then some .fail
    else unifyMap glv fuel us vs s
  | fuel + 1, .slice a b c, .slice a' b' c', s =>
    match unifyCore glv fuel a a' s with
    | none => none
    | some .fail => some .fail
    | some (.ok s1) =>
      match unifyCore glv fuel b b' s1 with
      | none => none
      | some .fail => some .fail
      | some (.ok s2) => unifyCore glv fuel c c' s2
  | _ + 1, u, v, s => some (if tbeq u v then .ok s else .fail)

/-- `_unify_Var_object(u, v, s)` where `u` is the `Var` with token `x` (the
dispatch guarantees a `Var` here).  Walk `u`; walk `v` too when `isvar(v)`;
then proceed on the resolved pair (`unifyVarGo`). -/
def unifyVar (glv : List Term) : Nat → Nat → Term → Subst → Option UR
  | 0, _, _, _ => none
  | fuel + 1, x, v, s =>
    match walk glv s (.var x) with
    | none => none
    | some u_w =>
      if isvarB glv v then
        match walk glv s v with
        | none => none
        | some v' => unifyVarGo glv fuel x u_w v' s
      else unifyVarGo glv fuel x u_w v s

/-- The tail of `_unify_Var_object` after walking: if `u` is still unbound
(`u_w is u`), succeed with `s` when the resolved values are equal and bind
`u ↦ v'` otherwise; if `u` resolved to something else, recurse on it. -/
def unifyVarGo (glv : List Term) : Nat → Nat → Term → Term → Subst →
    Option UR
  | 0, _, _, _, _ => none
  | fuel + 1, x, u_w, v', s =>
    if tbeq u_w (.var x) then
      some (if tbeq (.var x) v' then .ok s else .ok (assoc s (.var x) v'))
    else unifyCore glv fuel u_w v' s

/-- The pairwise fold of `_unify_Iterable` over `zip(u, v)` (which stops at
the shorter sequence), threading the substitution and short-circuiting on the
first failure; `yield s` when the loop completes. -/
def unifyZip (glv : List Term) : Nat → List Term → List Term → Subst →
    Option UR
  | 0, _, _, _ => none
  | _ + 1, [], _, s => some (.ok s)
  | _ + 1, _ :: _, [], s => some (.ok s)
  | fuel + 1, u :: us, v :: vs, s =>
    match unifyCore glv fuel u v s with
    | none => none
    | some .fail => some .fail
    | some (.ok s') => unifyZip glv fuel us vs s'

/-- The entry fold of `_unify_Mapping` over `u.items()`: fail on a key of `u`
absent from `v`, otherwise unify the two values and thread the substitution,
short-circuiting on the first failure; `yield s` when the loop completes. -/
def unifyMap (glv : List Term) : Nat → List (Term × Term) →
    List (Term × Term) → Subst → Option UR
  | 0, _, _, _ => none
  | _ + 1, [], _, s => some (.ok s)
  | fuel + 1, (k, uval) :: rest, vps, s =>
    match slookup vps k with
    | none => some .fail
    | some vval =>
      match unifyCore glv fuel uval vval s with
      | none => none
      | some .fail => some .fail
      | some (.ok s') => unifyMap glv fuel rest vps s'
end

/-- `unify(u, v, s)` from `unification/core.py`: the identity fast path
(`u is v`, approximated by equality of the modelled values) followed by the
dispatched `_unify` run through `stream_eval`. -/
def unify (glv : List Term) (fuel : Nat) (u v : Term) (s : Subst) :
    Option UR :=
  if tbeq u v then some (.ok s) else unifyCore glv fuel u v s

mutual
/-- `isground(u, s)` from `unification/core.py`: run the `_reify` stream with
an observer that raises `UngroundLVarException` at the first produced value
`r` with `isvar(r)` (converted to the result `False`) and kills each frame at
its `construction_sentinel` (so no container is ever rebuilt).  The produced
plain values of the stream are exactly the walked-but-unbound variables and
the non-compound leaves, visited left-to-right with short-circuiting; `fuel`
is decremented at every step exactly as in `reifyF`. -/
def isgroundF (glv : List Term) : Nat → Subst → Term → Option Bool
  | 0, _, _ => none
  | _ + 1, _, .atom a => some (!(isvarB glv (.atom a)))
  | fuel + 1, s, .var x =>
    match walk glv s (.var x) with
    | none => none
    | some w =>
      if tbeq w (.var x) then some false
      else isgroundF glv fuel s w
  | fuel + 1, s, .tuple ts => isgroundL glv fuel s ts
  | fuel + 1, s, .list ts => isgroundL glv fuel s ts
  | fuel + 1, s, .iterator _ ts => isgroundL glv fuel s ts
  | fuel + 1, s, .set ts => isgroundL glv fuel s ts
  | fuel + 1, s, .map kvs => isgroundP glv fuel s kvs
  | fuel + 1, s, .slice a b c =>
    match isgroundF glv fuel s a with
    | none => none
    | some false => some false
    | some true =>
      match isgroundF glv fuel s b with
      | none => none
      | some false => some false
      | some true => isgroundF glv fuel s c

def isgroundL (glv : List Term) : Nat → Subst → List Term → Option Bool
  | 0, _, _ => none
  | _ + 1, _, [] => some true
  | fuel + 1, s, t :: ts =>
    match isgroundF glv fuel s t with
    | none => none
    | some false => some false
    | some true => isgroundL glv fuel s ts

def isgroundP (glv : List Term) : Nat → Subst → List (Term × Term) →
    Option Bool
  | 0, _, _ => none
  | _ + 1, _, [] => some true
  | fuel + 1, s, (k, v) :: kvs =>
    match isgroundF glv fuel s k with
    | none => none
    | some false => some false
    | some true =>
      match isgroundF glv fuel s v with
      | none => none
      | some false => some false
      | some true => isgroundP glv fuel s kvs
end

mutual
/-- `unground_lvars(u, s)` from `unification/core.py`: run the `_reify`
stream with an observer that records every produced value `r` with
`isvar(r)` and kills each frame at its `construction_sentinel` (the whole
term is still walked, only reconstruction is skipped).  The recorded values
in production order, as a list; `unground_lvars` keeps them in a Python set,
whose emptiness agrees with the list's; `fuel` as in `reifyF`. -/
def collectF (glv : List Term) : Nat → Subst → Term → Option (List Term)
  | 0, _, _ => none
  | _ + 1, _, .atom a => some (if isvarB glv (.atom a) then [.atom a] else [])
  | fuel + 1, s, .var x =>
    match walk glv s (.var x) with
    | none => none
    | some w =>
      if tbeq w (.var x) then some [.var x]
      else collectF glv fuel s w
  | fuel + 1, s, .tuple ts => collectL glv fuel s ts
  | fuel + 1, s, .list ts => collectL glv fuel s ts
  | fuel + 1, s, .iterator _ ts => collectL glv fuel s ts
  | fuel + 1, s, .set ts => collectL glv fuel s ts
  | fuel + 1, s, .map kvs => collectP glv fuel s kvs
  | fuel + 1, s, .slice a b c =>
    match collectF glv fuel s a with
    | none => none
    | some la =>
      match collectF glv fuel s b with
      | none => none
      | some lb =>
        match collectF glv fuel s c with
        | none => none
        | some lc => some (la ++ lb ++ lc)

def collectL (glv : List Term) : Nat → Subst → List Term →
    Option (List Term)
  | 0, _, _ => none
  | _ + 1, _, [] => some []
  | fuel + 1, s, t :: ts =>
    match collectF glv fuel s t with
    | none => none
    | some l =>
      match collectL glv fuel s ts with
      | none => none
      | some ls => some (l ++ ls)

def collectP (glv : List Term) : Nat → Subst → List (Term × Term) →
    Option (List Term)
  | 0, _, _ => none
  | _ + 1, _, [] => some []
  | fuel + 1, s, (k, v) :: kvs =>
    match collectF glv fuel s k with
    | none => none
    | some lk =>
      match collectF glv fuel s v with
      | none => none
      | some lv =>
        match collectP glv fuel s kvs with
        | none => none
        | some ls => some (lk ++ lv ++ ls)
end

/-- The token of a `Var` from `unification/variable.py`.  A call of
`Var()` with no argument draws the token string `"_%s" % Var._id` from the
class counter; the model keeps the counter value (distinct counters give
distinct strings).  `Var(t)` uses `t` itself, and `Var(t1, t2, ...)` keeps
the whole argument tuple as the token. -/
inductive VTok where
  | auto : Nat → VTok
  | user : String → VTok
  | tupleTok : List String → VTok
  deriving DecidableEq

/-- A `Var` object: immutable after creation, its only state is the token. -/
structure VarObj where
  token : VTok

/-- `Var.__new__`: the three arity branches of the `*token` parameter, paired
with the class counter `Var._id` before/after the call. -/
def varNew : List String → Nat → VarObj × Nat
  | [], id => (⟨.auto id⟩, id + 1)
  | [t], id => (⟨.user t⟩, id)
  | ts, id => (⟨.tupleTok ts⟩, id)

/-- `Var.__eq__`: `type(self) == type(other) and self.token == other.token`
(both sides here are `Var`s, so the type test holds). -/
def varEq (a b : VarObj) : Bool := a.token = b.token

/-- `Var.__hash__` is `hash((type(self), self.token))`: a function of the
token alone, modelled by the token itself. -/
def varHash (a : VarObj) : VTok := a.token

/-- The `i`-th variable produced by a sequence of no-token `Var()` calls
threading the class counter, starting from counter state `st`. -/
def varAutoSeq : Nat → Nat → VarObj
  | st, 0 => (varNew [] st).1
  | st, i + 1 => varAutoSeq (varNew [] st).2 i

/-- How the body of a `with variables(...)` block exits: normally or with an
uncaught exception. -/
inductive ScopeExit where
  | normal : ScopeExit
  | raised : Nat → ScopeExit

/-- The `variables(*variables)` context manager from
`unification/variable.py`, with the process-wide registry passed explicitly.
The body receives the in-scope registry and reports how it exited together
with the registry as it left it (the block may itself change the
process-wide registry, e.g. by nesting scopes); the `finally` clause clears
the registry and reinstates the pre-scope snapshot unconditionally.  When
one of the new values is unhashable, `set(variables)` raises before the
registry is touched and the block never runs. -/
def variablesRun (glv : List Term) (vs : List Term)
    (body : List Term → ScopeExit × List Term) : ScopeExit × List Term :=
  if vs.all hashable then
    let old := glv
    let during := glv ++ vs.filter (fun v => !(glv.any (fun g => tbeq g v)))
    let res := (body during).1
    (res, old)
  else (.raised 0, glv)

mutual
/-- Occurrence of the logic variable with token `x` anywhere in a term. -/
def occursVar (x : Nat) : Term → Bool
  | .atom _ => false
  | .var y => x == y
  | .tuple ts => occursVarL x ts
  | .list ts => occursVarL x ts
  | .set ts => occursVarL x ts
  | .iterator _ ts => occursVarL x ts
  | .map kvs => occursVarP x kvs
  | .slice a b c => occursVar x a || occursVar x b || occursVar x c

def occursVarL (x : Nat) : List Term → Bool
  | [] => false
  | t :: ts => occursVar x t || occursVarL x ts

def occursVarP (x : Nat) : List (Term × Term) → Bool
  | [] => false
  | (k, v) :: kvs => occursVar x k || occursVar x v || occursVarP x kvs
end

/-- Pairwise distinctness (under `==`) of the keys of a modelled dict. -/
def distinctKeys : List (Term × Term) → Bool
  | [] => true
  | (k, _) :: rest => !(rest.any (fun p => tbeq p.1 k)) && distinctKeys rest

mutual
/-- Representability of a modelled value as an actual Python object: every
dict inside has pairwise-distinct keys (a Python `dict` cannot hold two
equal keys). -/
def wfT : Term → Bool
  | .atom _ => true
  | .var _ => true
  | .tuple ts => wfL ts
  | .list ts => wfL ts
  | .set ts => wfL ts
  | .iterator _ ts => wfL ts
  | .map kvs => distinctKeys kvs && wfP kvs
  | .slice a b c => wfT a && wfT b && wfT c

def wfL : List Term → Bool
  | [] => true
  | t :: ts => wfT t && wfL ts

def wfP : List (Term × Term) → Bool
  | [] => true
  | (k, v) :: kvs => wfT k && wfT v && wfP kvs
end

/-- Representability of a substitution: every term in its range is
representable (a Python execution can only ever bind representable
values). -/
def wfS (s : Subst) : Bool := s.all (fun p => wfT p.2)

/-- Python `==` between two substitution dicts: equal size and pointwise
equal values at equal keys. -/
def substPyEq (a b : Subst) : Bool :=
  (List.length a == List.length b) &&
    a.all (fun p =>
      match slookup b p.1 with
      | some w => tbeq p.2 w
      | none => false)

/-- Python `==` between possible results of `unify`: `False == False` holds,
two dicts compare by content, and `False` never equals a dict — a `bool`
and a `dict` are never equal in Python, so the failure marker is
distinguishable from every substitution. -/
def urPyEq : UR → UR → Bool
  | .fail, .fail => true
  | .ok a, .ok b => substPyEq a b
  | _, _ => false

/-- The specified behaviour of slice unification, written from the claim:
unify start against start, then stop against stop, then step against step,
threading the substitution through in that order, returning the failure
marker as soon as one of the three fails, and on success the substitution
produced by the step unification. -/
def sliceSeq (glv : List Term) (fuel : Nat) (a b c a' b' c' : Term)
    (s : Subst) : Option UR :=
  match unifyCore glv fuel a a' s with
  | none => none
  | some .fail => some .fail
  | some (.ok s1) =>
    match unifyCore glv fuel b b' s1 with
    | none => none
    | some .fail => some .fail
    | some (.ok s2) => unifyCore glv fuel c c' s2

mutual
/-- Python `==` between the values returned by two distinct completed calls
of `reify`: atoms compare by value, variables by token, tuples, lists and
slices pointwise, and the reconstructed sets/dicts (rebuilt in identical
iteration order by identical runs on the same input) entrywise.  An
iterator, however, is a freshly allocated one-shot object on every call
(`iter(res)` builds a new `list_iterator`), and Python compares iterator
objects by identity, so two iterators returned by distinct calls are never
equal. -/
def pyEqAcrossCalls : Term → Term → Bool
  | .atom a, .atom b => a == b
  | .var a, .var b => a == b
  | .tuple as, .tuple bs => pyEqAcrossCallsL as bs
  | .list as, .list bs => pyEqAcrossCallsL as bs
  | .set as, .set bs => pyEqAcrossCallsL as bs
  | .map as, .map bs => pyEqAcrossCallsP as bs
  | .slice a b c, .slice a' b' c' =>
    pyEqAcrossCalls a a' && pyEqAcrossCalls b b' && pyEqAcrossCalls c c'
  | .iterator _ _, .iterator _ _ => false
  | _, _ => false

def pyEqAcrossCallsL : List Term → List Term → Bool
  | [], [] => true
  | a :: as, b :: bs => pyEqAcrossCalls a b && pyEqAcrossCallsL as bs
  | _, _ => false

def pyEqAcrossCallsP : List (Term × Term) → List (Term × Term) → Bool
  | [], [] => true
  | (k, v) :: as, (k', v') :: bs =>
    pyEqAcrossCalls k k' && pyEqAcrossCalls v v' && pyEqAcrossCallsP as bs
  | _, _ => false
end

/-! Infrastructure: `tbeq` is exactly propositional equality of `Term`. -/

theorem sizeOf_lt_of_mem_list {t : Term} {ts : List Term} (h : t ∈ ts) :
    sizeOf t < sizeOf ts := by
  induction ts with
  | nil => cases h
  | cons a as ih =>
    rcases List.mem_cons.mp h with h1 | h2
    · subst h1; simp; omega
    · have := ih h2; simp; omega

theorem sizeOf_fst_lt_of_mem_pairs {k v : Term} {ps : List (Term × Term)}
    (h : (k, v) ∈ ps) : sizeOf k < sizeOf ps := by
  induction ps with
  | nil => cases h
  | cons a as ih =>
    rcases List.mem_cons.mp h with h1 | h2
    · cases h1; simp; omega
    · have := ih h2; simp; omega

theorem sizeOf_snd_lt_of_mem_pairs {k v : Term} {ps : List (Term × Term)}
    (h : (k, v) ∈ ps) : sizeOf v < sizeOf ps := by
  induction ps with
  | nil => cases h
  | cons a as ih =>
    rcases List.mem_cons.mp h with h1 | h2
    · cases h1; simp; omega
    · have := ih h2; simp; omega

theorem term_ind {motive : Term → Prop}
    (h : ∀ t, (∀ u, sizeOf u < sizeOf t → motive u) → motive t) :
    ∀ t, motive t := by
  have key : ∀ n t, sizeOf t ≤ n → motive t := by
    intro n
    induction n with
    | zero =>
      intro t ht
      exact h t (fun u hu => (Nat.not_lt_zero _ (Nat.lt_of_lt_of_le hu ht)).elim)
    | succ n ih => intro t ht; exact h t (fun u hu => ih u (by omega))
  exact fun t => key (sizeOf t) t le_rfl

theorem tbeqL_eq_of (as : List Term)
    (ih : ∀ x ∈ as, ∀ y, tbeq x y = true ↔ x = y) :
    ∀ bs, tbeqL as bs = true ↔ as = bs := by
  induction as with
  | nil => intro bs; cases bs <;> simp [tbeqL]
  | cons a as ihl =>
    intro bs
    cases bs with
    | nil => simp [tbeqL]
    | cons b bs =>
      have h1 := ih a (by simp)
      have h2 := ihl (fun x hx => ih x (by simp [hx])) bs
      simp [tbeqL, Bool.and_eq_true, h1 b, h2]

theorem tbeqP_eq_of (as : List (Term × Term))
    (ih : ∀ p ∈ as, (∀ y, tbeq p.1 y = true ↔ p.1 = y) ∧
      (∀ y, tbeq p.2 y = true ↔ p.2 = y)) :
    ∀ bs, tbeqP as bs = true ↔ as = bs := by
  induction as with
  | nil => intro bs; cases bs <;> simp [tbeqP]
  | cons a as ihl =>
    intro bs
    obtain ⟨k, v⟩ := a
    cases bs with
    | nil => simp [tbeqP]
    | cons b bs =>
      obtain ⟨k', v'⟩ := b
      have h1 := (ih (k, v) (by simp)).1
      have h2 := (ih (k, v) (by simp)).2
      have h3 := ihl (fun p hp => ih p (by simp [hp])) bs
      simp [tbeqP, Bool.and_eq_true, h1 k', h2 v', h3, Prod.ext_iff]

theorem tbeq_eq : ∀ a b : Term, tbeq a b = true ↔ a = b := by
  intro a
  induction a using term_ind with
  | h t ih =>
    intro b
    cases t with
    | atom x => cases b <;> simp [tbeq]
    | var x => cases b <;> simp [tbeq]
    | tuple ts =>
      have hl := tbeqL_eq_of ts
        (fun x hx => ih x (by have := sizeOf_lt_of_mem_list hx; simp; omega))
      cases b <;> simp [tbeq, hl]
    | list ts =>
      have hl := tbeqL_eq_of ts
        (fun x hx => ih x (by have := sizeOf_lt_of_mem_list hx; simp; omega))
      cases b <;> simp [tbeq, hl]
    | set ts =>
      have hl := tbeqL_eq_of ts
        (fun x hx => ih x (by have := sizeOf_lt_of_mem_list hx; simp; omega))
      cases b <;> simp [tbeq, hl]
    | map kvs =>
      have hp := tbeqP_eq_of kvs (fun p hp => by
        obtain ⟨k, v⟩ := p
        constructor
        · exact ih k (by have := sizeOf_fst_lt_of_mem_pairs hp; simp; omega)
        · exact ih v (by have := sizeOf_snd_lt_of_mem_pairs hp; simp; omega))
      cases b <;> simp [tbeq, hp]
    | slice x y z =>
      have hx := ih x (by simp +arith)
      have hy := ih y (by simp +arith)
      have hz := ih z (by simp +arith)
      cases b <;> simp [tbeq, Bool.and_eq_true, hx, hy, hz, and_assoc]
    | iterator h ts =>
      have hl := tbeqL_eq_of ts
        (fun x hx => ih x (by have := sizeOf_lt_of_mem_list hx; simp; omega))
      cases b <;> simp [tbeq, Bool.and_eq_true, hl]

instance : DecidableEq Term := fun a b => decidable_of_iff _ (tbeq_eq a b)

theorem tbeq_refl (a : Term) : tbeq a a = true := (tbeq_eq a a).mpr rfl

theorem tbeq_false {a b : Term} (h : a ≠ b) : tbeq a b = false := by
  cases hab : tbeq a b with
  | false => rfl
  | true => exact absurd ((tbeq_eq a b).mp hab) h

/-! Walk lemmas: a value returned by `walk` is final. -/

theorem walkGo_final {glv : List Term} {s : Subst} :
    ∀ (f : Nat) (t w : Term), walkGo glv s f t = some w →
      isvarB glv w = true → slookup s w = none := by
  intro f
  induction f with
  | zero =>
    intro t w h hw
    rw [walkGo] at h
    by_cases hv : isvarB glv t = true
    · rw [if_pos hv] at h
      cases hl : slookup s t with
      | some t' => rw [hl] at h; simp at h
      | none => rw [hl] at h; cases h; exact hl
    · rw [if_neg hv] at h
      cases h
      exact absurd hw hv
  | succ n ih =>
    intro t w h hw
    rw [walkGo] at h
    by_cases hv : isvarB glv t = true
    · rw [if_pos hv] at h
      cases hl : slookup s t with
      | some t' => rw [hl] at h; exact ih t' w h hw
      | none => rw [hl] at h; cases h; exact hl
    · rw [if_neg hv] at h
      cases h
      exact absurd hw hv

theorem walk_final {glv : List Term} {s : Subst} {t w : Term}
    (h : walk glv s t = some w) (hw : isvarB glv w = true) :
    slookup s w = none :=
  walkGo_final _ t w h hw

theorem isvarB_var (glv : List Term) (x : Nat) :
    isvarB glv (.var x) = true := rfl

theorem walk_var_unbound {glv : List Term} {s : Subst} {x : Nat}
    (h : slookup s (.var x) = none) :
    walk glv s (.var x) = some (.var x) := by
  rw [walk, walkGo]
  simp [isvarB, isvar, h]

/-- C1. The failure result of `unify` is a value distinguishable from every
valid substitution, including the empty one: every call returns either a
substitution or the failure marker (or diverges, modelled by `none`), and
under Python equality the failure marker `False` equals no dict — in
particular not the empty dict. -/
theorem claim1_failure_marker_distinct :
    ∀ (glv : List Term) (fuel : Nat) (u v : Term) (s : Subst),
      (unify glv fuel u v s = none ∨ unify glv fuel u v s = some .fail ∨
        ∃ m, unify glv fuel u v s = some (.ok m)) ∧
      (∀ m : Subst, urPyEq .fail (.ok m) = false ∧
        urPyEq (.ok m) .fail = false) ∧
      urPyEq .fail (.ok []) = false := by
  intro glv fuel u v s
  refine ⟨?_, fun m => ⟨rfl, rfl⟩, rfl⟩
  cases h : unify glv fuel u v s with
  | none => exact Or.inl rfl
  | some r =>
    cases r with
    | fail => exact Or.inr (Or.inl rfl)
    | ok m => exact Or.inr (Or.inr ⟨m, rfl⟩)

/-- C8. After a `with variables(...)` scope exits — normally or by a raised
error — the ad hoc registry is restored to its exact pre-scope snapshot, so
`isvar` returns exactly its pre-scope value on every input. -/
theorem claim8_scope_restore :
    ∀ (glv vs : List Term) (body : List Term → ScopeExit × List Term),
      (variablesRun glv vs body).2 = glv ∧
      ∀ x, isvar ((variablesRun glv vs body).2) x = isvar glv x := by
  intro glv vs body
  have h2 : (variablesRun glv vs body).2 = glv := by
    rw [variablesRun]
    split <;> rfl
  exact ⟨h2, fun x => by rw [h2]⟩

/-- C9 (counterexample). `isvar` applied to an unhashable value (a Python
list) does not return a boolean: the suppressed `TypeError` makes the
function fall off the end and return `None`. -/
theorem claim9_counterexample :
    (isvar [] (Term.list [])).isSome = false := rfl

/-- C9 (amended). `isvar` is total and never raises: it returns `True` on
every `Var`, returns a boolean exactly on the hashable values, and on an
unhashable value returns `None`, which is treated as false in boolean
contexts. -/
theorem claim9_isvar_total :
    ∀ (glv : List Term) (x : Term) (tok : Nat),
      isvar glv (.var tok) = some true ∧
      (isvar glv x).isSome = hashable x ∧
      (isvar glv x = none → isvarB glv x = false) := by
  intro glv x tok
  refine ⟨rfl, ?_, fun h => by rw [isvarB, h]; rfl⟩
  cases x with
  | var y => rfl
  | atom a => rfl
  | iterator h ts => rfl
  | tuple ts =>
    cases hh : hashable (.tuple ts) <;> simp [isvar, hh]
  | list ts => rfl
  | set ts => rfl
  | map kvs => rfl
  | slice a b c => rfl

theorem claim9_isvar_total_witness :
    isvarB [] (Term.list []) = false ∧
    (isvar [] (Term.atom 5)).isSome = hashable (Term.atom 5) :=
  ⟨(claim9_isvar_total [] (Term.list []) 0).2.2 rfl,
    (claim9_isvar_total [] (Term.atom 5) 0).2.1⟩

theorem varAutoSeq_token : ∀ (i st : Nat), varAutoSeq st i = ⟨.auto (st + i)⟩ := by
  intro i
  induction i with
  | zero => intro st; rfl
  | succ n ih =>
    intro st
    rw [varAutoSeq, varNew, ih]
    simp [Nat.add_comm, Nat.add_assoc, Nat.add_left_comm]

/-- C10. No-token `Var()` calls draw their tokens from a strictly increasing
counter, so each such variable is unequal to every earlier one; `Var`
equality holds exactly on equal tokens, and the hash is a function of the
token, hence consistent with equality. -/
theorem claim10_fresh_auto_vars :
    ∀ (st i j : Nat) (a b : VarObj),
      (varNew [] st).2 = st + 1 ∧
      (i ≠ j → varEq (varAutoSeq st i) (varAutoSeq st j) = false) ∧
      (varEq a b = true ↔ a.token = b.token) ∧
      (varEq a b = true → varHash a = varHash b) := by
  intro st i j a b
  refine ⟨rfl, ?_, ?_, ?_⟩
  · intro hij
    rw [varAutoSeq_token, varAutoSeq_token, varEq]
    simp
    omega
  · rw [varEq]
    simp
  · intro h
    rw [varEq] at h
    simp at h
    rw [varHash, varHash, h]

theorem claim10_fresh_auto_vars_witness :
    varEq (varAutoSeq 1 0) (varAutoSeq 1 1) = false :=
  (claim10_fresh_auto_vars 1 0 1 ⟨.auto 0⟩ ⟨.auto 0⟩).2.1 (by omega)

/-- C4 (counterexample). Two ordered sequences of differing length — two
iterators without length hints, e.g. generators over 2 and 3 elements — for
which `unify` succeeds: `length_hint` yields `-1` for both, the length guard
passes, and `zip` silently drops the extra element. -/
theorem claim4_counterexample :
    unify [] 20 (Term.iterator none [Term.atom 1, Term.atom 2])
        (Term.iterator none [Term.atom 1, Term.atom 2, Term.atom 3]) [] =
      some (UR.ok []) ∧
    List.length [Term.atom 1, Term.atom 2] ≠
      List.length [Term.atom 1, Term.atom 2, Term.atom 3] :=
  ⟨rfl, by decide⟩

/-- C4 (amended). `unify` on a pair of ordered sequences of the same shape
whose lengths are determinable through `length_hint` — tuples, lists, and
iterators via their hints — fails whenever the reported lengths differ;
iterator pairs whose hints both read `-1` are folded over `zip` instead and
may succeed despite differing true lengths. -/
theorem claim4_length_mismatch :
    ∀ (glv : List Term) (fuel : Nat) (us vs : List Term)
      (hu hv : Option Nat) (s : Subst),
      (us.length ≠ vs.length →
        unify glv (fuel + 1) (.tuple us) (.tuple vs) s = some .fail ∧
        unify glv (fuel + 1) (.list us) (.list vs) s = some .fail) ∧
      (lenHint (.iterator hu us) ≠ lenHint (.iterator hv vs) →
        unify glv (fuel + 1) (.iterator hu us) (.iterator hv vs) s =
          some .fail) := by
  intro glv fuel us vs hu hv s
  constructor
  · intro hlen
    have hb : ∀ f : List Term → Term, (∀ as bs : List Term, f as = f bs → as = bs) →
        tbeq (f us) (f vs) = false := fun f hinj =>
      tbeq_false (fun h => hlen (by rw [hinj us vs h]))
    have hhint : ((List.length us : Int) != (List.length vs : Int)) = true := by
      simp [bne_iff_ne]
      exact_mod_cast hlen
    constructor
    · have h1 := hb Term.tuple (fun as bs h => by cases h; rfl)
      simp [unify, h1, unifyCore, lenHint, hhint]
    · have h1 := hb Term.list (fun as bs h => by cases h; rfl)
      simp [unify, h1, unifyCore, lenHint, hhint]
  · intro hlen
    have hne : Term.iterator hu us ≠ Term.iterator hv vs := by
      intro h
      cases h
      exact hlen rfl
    have hhint : (lenHint (.iterator hu us) != lenHint (.iterator hv vs)) = true := by
      simp [bne_iff_ne]
      exact hlen
    simp [unify, tbeq_false hne, unifyCore, hhint]

theorem claim4_length_mismatch_witness :
    unify [] 6 (.tuple [Term.atom 1, Term.atom 2])
      (.tuple [Term.atom 1, Term.atom 2, Term.atom 3]) [] = some .fail :=
  ((claim4_length_mismatch [] 5 [Term.atom 1, Term.atom 2]
    [Term.atom 1, Term.atom 2, Term.atom 3] none none []).1 (by decide)).1

/-! C2 infrastructure: `isground` and `unground_lvars` traverse identically,
so whenever both complete, the boolean is true exactly when the collected
list is empty. -/

theorem ground_collect_aligned (glv : List Term) :
    ∀ n : Nat,
      (∀ s t b l, isgroundF glv n s t = some b →
        collectF glv n s t = some l → (b = true ↔ l = [])) ∧
      (∀ s ts b l, isgroundL glv n s ts = some b →
        collectL glv n s ts = some l → (b = true ↔ l = [])) ∧
      (∀ s kvs b l, isgroundP glv n s kvs = some b →
        collectP glv n s kvs = some l → (b = true ↔ l = [])) := by
  intro n
  induction n with
  | zero =>
    refine ⟨?_, ?_, ?_⟩ <;> intro s t b l hg hc <;>
      simp [isgroundF, isgroundL, isgroundP] at hg
  | succ n ih =>
    obtain ⟨ihA, ihB, ihC⟩ := ih
    refine ⟨?_, ?_, ?_⟩
    · intro s t b l hg hc
      cases t with
      | atom a =>
        rw [isgroundF] at hg
        rw [collectF] at hc
        cases hiv : isvarB glv (.atom a) <;> rw [hiv] at hg hc <;>
          simp at hg hc <;> subst hg <;> subst hc <;> simp
      | var x =>
        rw [isgroundF] at hg
        rw [collectF] at hc
        cases hw : walk glv s (.var x) with
        | none => rw [hw] at hg; cases hg
        | some w =>
          rw [hw] at hg hc
          by_cases ht : tbeq w (.var x) = true
          · simp only [ht, if_true] at hg hc
            simp at hg hc
            subst hg; subst hc; simp
          · simp only [ht, if_false, Bool.false_eq_true] at hg hc
            exact ihA s w b l hg hc
      | tuple ts =>
        rw [isgroundF] at hg; rw [collectF] at hc
        exact ihB s ts b l hg hc
      | list ts =>
        rw [isgroundF] at hg; rw [collectF] at hc
        exact ihB s ts b l hg hc
      | set ts =>
        rw [isgroundF] at hg; rw [collectF] at hc
        exact ihB s ts b l hg hc
      | iterator hint ts =>
        rw [isgroundF] at hg; rw [collectF] at hc
        exact ihB s ts b l hg hc
      | map kvs =>
        rw [isgroundF] at hg; rw [collectF] at hc
        exact ihC s kvs b l hg hc
      | slice a1 a2 a3 =>
        rw [isgroundF] at hg; rw [collectF] at hc
        cases hg1 : isgroundF glv n s a1 with
        | none => rw [hg1] at hg; cases hg
        | some b1 =>
          rw [hg1] at hg
          cases hc1 : collectF glv n s a1 with
          | none => rw [hc1] at hc; cases hc
          | some l1 =>
            rw [hc1] at hc
            have h1 := ihA s a1 b1 l1 hg1 hc1
            cases hc2 : collectF glv n s a2 with
            | none => rw [hc2] at hc; cases hc
            | some l2 =>
              rw [hc2] at hc
              cases hc3 : collectF glv n s a3 with
              | none => rw [hc3] at hc; cases hc
              | some l3 =>
                rw [hc3] at hc
                simp at hc
                subst hc
                cases b1 with
                | false =>
                  simp at hg
                  subst hg
                  simp
                  intro h1e
                  exact absurd (h1.mpr h1e) (by simp)
                | true =>
                  have hl1 : l1 = [] := h1.mp rfl
                  subst hl1
                  cases hg2 : isgroundF glv n s a2 with
                  | none => rw [hg2] at hg; cases hg
                  | some b2 =>
                    rw [hg2] at hg
                    have h2 := ihA s a2 b2 l2 hg2 hc2
                    cases b2 with
                    | false =>
                      simp at hg
                      subst hg
                      simp
                      intro h2e
                      exact absurd (h2.mpr h2e) (by simp)
                    | true =>
                      have hl2 : l2 = [] := h2.mp rfl
                      subst hl2
                      simp
                      exact ihA s a3 b l3 hg hc3
    · intro s ts b l hg hc
      cases ts with
      | nil =>
        rw [isgroundL] at hg; rw [collectL] at hc
        simp at hg hc
        subst hg; subst hc; simp
      | cons t ts =>
        rw [isgroundL] at hg; rw [collectL] at hc
        cases hg1 : isgroundF glv n s t with
        | none => rw [hg1] at hg; cases hg
        | some b1 =>
          rw [hg1] at hg
          cases hc1 : collectF glv n s t with
          | none => rw [hc1] at hc; cases hc
          | some l1 =>
            rw [hc1] at hc
            cases hc2 : collectL glv n s ts with
            | none => rw [hc2] at hc; cases hc
            | some l2 =>
              rw [hc2] at hc
              simp at hc
              subst hc
              have h1 := ihA s t b1 l1 hg1 hc1
              cases b1 with
              | false =>
                simp at hg
                subst hg
                simp
                intro h1e
                exact absurd (h1.mpr h1e) (by simp)
              | true =>
                have hl1 : l1 = [] := h1.mp rfl
                subst hl1
                simp
                exact ihB s ts b l2 hg hc2
    · intro s kvs b l hg hc
      cases kvs with
      | nil =>
        rw [isgroundP] at hg; rw [collectP] at hc
        simp at hg hc
        subst hg; subst hc; simp
      | cons kv kvs =>
        obtain ⟨k, v⟩ := kv
        rw [isgroundP] at hg; rw [collectP] at hc
        cases hg1 : isgroundF glv n s k with
        | none => rw [hg1] at hg; cases hg
        | some b1 =>
          rw [hg1] at hg
          cases hc1 : collectF glv n s k with
          | none => rw [hc1] at hc; cases hc
          | some l1 =>
            rw [hc1] at hc
            cases hc2 : collectF glv n s v with
            | none => rw [hc2] at hc; cases hc
            | some l2 =>
              rw [hc2] at hc
              cases hc3 : collectP glv n s kvs with
              | none => rw [hc3] at hc; cases hc
              | some l3 =>
                rw [hc3] at hc
                simp at hc
                subst hc
                have h1 := ihA s k b1 l1 hg1 hc1
                cases b1 with
                | false =>
                  simp at hg
                  subst hg
                  simp
                  intro h1e
                  exact absurd (h1.mpr h1e) (by simp)
                | true =>
                  have hl1 : l1 = [] := h1.mp rfl
                  subst hl1
                  cases hg2 : isgroundF glv n s v with
                  | none => rw [hg2] at hg; cases hg
                  | some b2 =>
                    rw [hg2] at hg
                    have h2 := ihA s v b2 l2 hg2 hc2
                    cases b2 with
                    | false =>
                      simp at hg
                      subst hg
                      simp
                      intro h2e
                      exact absurd (h2.mpr h2e) (by simp)
                    | true =>
                      have hl2 : l2 = [] := h2.mp rfl
                      subst hl2
                      simp
                      exact ihC s kvs b l3 hg hc3

/-- C2. Whenever both complete, `isground(t, s)` returns `True` exactly when
`unground_lvars(t, s)` collected nothing — i.e. the free-variable set is
empty. -/
theorem claim2_isground_iff_no_unground :
    ∀ (glv : List Term) (n : Nat) (s : Subst) (t : Term) (b : Bool)
      (l : List Term),
      isgroundF glv n s t = some b → collectF glv n s t = some l →
      (b = true ↔ l = []) :=
  fun glv n => (ground_collect_aligned glv n).1

theorem claim2_isground_iff_no_unground_witness :
    (true = true ↔ ([] : List Term) = []) ∧
    (false = true ↔ [Term.var 1] = ([] : List Term)) :=
  ⟨claim2_isground_iff_no_unground [] 20 [(.var 0, .atom 2)]
      (.tuple [.var 0, .atom 1]) true [] rfl rfl,
    claim2_isground_iff_no_unground [] 20 [(.var 0, .atom 2)]
      (.tuple [.var 0, .var 1]) false [.var 1] rfl rfl⟩

/-! C7 infrastructure: successful unification only extends the substitution;
every binding of the input dict survives unchanged in the result. -/

def SubExt (s m : Subst) : Prop :=
  ∀ k w, slookup s k = some w → slookup m k = some w

theorem subExt_refl {s : Subst} : SubExt s s := fun _ _ h => h

theorem subExt_trans {s1 s2 s3 : Subst} (h1 : SubExt s1 s2)
    (h2 : SubExt s2 s3) : SubExt s1 s3 :=
  fun k w h => h2 k w (h1 k w h)

theorem subExt_assoc {s : Subst} {x : Nat} {v' : Term}
    (h : slookup s (.var x) = none) : SubExt s (assoc s (.var x) v') := by
  intro k w hk
  rw [assoc, slookup, List.find?]
  cases hk0 : tbeq (Term.var x) k with
  | true =>
    have : Term.var x = k := (tbeq_eq _ _).mp hk0
    subst this
    rw [h] at hk
    cases hk
  | false =>
    exact hk

theorem ur_fail_not_ok {m : Subst} (h : (some UR.fail : Option UR) = some (.ok m)) :
    False :=
  UR.noConfusion (Option.some.inj h)

theorem ext_catchall {u v : Term} {s m : Subst}
    (h : (some (if tbeq u v then UR.ok s else UR.fail) : Option UR) =
      some (.ok m)) : SubExt s m := by
  cases htuv : tbeq u v <;> rw [htuv] at h
  · exact absurd h (by simp)
  · simp at h
    subst h
    exact subExt_refl

theorem unify_extends_aux (glv : List Term) :
    ∀ n : Nat,
      (∀ u v s m, unifyCore glv n u v s = some (.ok m) → SubExt s m) ∧
      (∀ x v s m, unifyVar glv n x v s = some (.ok m) → SubExt s m) ∧
      (∀ x u_w v' s m,
        (tbeq u_w (.var x) = true → slookup s (.var x) = none) →
        unifyVarGo glv n x u_w v' s = some (.ok m) → SubExt s m) ∧
      (∀ us vs s m, unifyZip glv n us vs s = some (.ok m) → SubExt s m) ∧
      (∀ ps vps s m, unifyMap glv n ps vps s = some (.ok m) → SubExt s m) := by
  intro n
  induction n with
  | zero =>
    refine ⟨?_, ?_, ?_, ?_, ?_⟩
    · intro u v s m h; cases h
    · intro x v s m h; cases h
    · intro x u_w v' s m _ h; cases h
    · intro us vs s m h; cases h
    · intro ps vps s m h; cases h
  | succ n ih =>
    obtain ⟨ihA, ihB, ihC, ihD, ihE⟩ := ih
    have seqStep : ∀ (a a' : Term) (s : Subst)
        (rest : Subst → Option UR) (m : Subst),
        (match unifyCore glv n a a' s with
          | none => none
          | some .fail => some .fail
          | some (.ok s1) => rest s1) = some (.ok m) →
        (∀ s1, unifyCore glv n a a' s = some (.ok s1) →
          rest s1 = some (.ok m) → SubExt s1 m) →
        SubExt s m := by
      intro a a' s rest m h hrest
      cases h1 : unifyCore glv n a a' s with
      | none => rw [h1] at h; cases h
      | some r =>
        cases r with
        | fail => rw [h1] at h; exact absurd h (by simp)
        | ok s1 =>
          rw [h1] at h
          exact subExt_trans (ihA a a' s s1 h1) (hrest s1 h1 h)
    refine ⟨?_, ?_, ?_, ?_, ?_⟩
    · -- unifyCore
      intro u v s m h
      cases u with
      | var x =>
        cases v with
        | var y => exact ihB x (.var y) s m h
        | atom b => exact ihB x (.atom b) s m h
        | tuple vs => exact ihB x (.tuple vs) s m h
        | list vs => exact ihB x (.list vs) s m h
        | set vs => exact ihB x (.set vs) s m h
        | map vs => exact ihB x (.map vs) s m h
        | slice a' b' c' => exact ihB x (.slice a' b' c') s m h
        | iterator hv vs => exact ihB x (.iterator hv vs) s m h
      | atom a =>
        cases v with
        | var y => exact ihB y (.atom a) s m h
        | atom b => exact ext_catchall h
        | tuple vs => exact ext_catchall h
        | list vs => exact ext_catchall h
        | set vs => exact ext_catchall h
        | map vs => exact ext_catchall h
        | slice a' b' c' => exact ext_catchall h
        | iterator hv vs => exact ext_catchall h
      | tuple us =>
        cases v with
        | var y => exact ihB y (.tuple us) s m h
        | tuple vs =>
          have h' : (if lenHint (.tuple us) != lenHint (.tuple vs) then
              some UR.fail else unifyZip glv n us vs s) = some (.ok m) := h
          by_cases hlen : (lenHint (.tuple us) != lenHint (.tuple vs)) = true
          · rw [if_pos hlen] at h'; exact absurd h' (by simp)
          · rw [if_neg hlen] at h'; exact ihD us vs s m h'
        | atom b => exact ext_catchall h
        | list vs => exact ext_catchall h
        | set vs => exact ext_catchall h
        | map vs => exact ext_catchall h
        | slice a' b' c' => exact ext_catchall h
        | iterator hv vs => exact ext_catchall h
      | list us =>
        cases v with
        | var y => exact ihB y (.list us) s m h
        | list vs =>
          have h' : (if lenHint (.list us) != lenHint (.list vs) then
              some UR.fail else unifyZip glv n us vs s) = some (.ok m) := h
          by_cases hlen : (lenHint (.list us) != lenHint (.list vs)) = true
          · rw [if_pos hlen] at h'; exact absurd h' (by simp)
          · rw [if_neg hlen] at h'; exact ihD us vs s m h'
        | atom b => exact ext_catchall h
        | tuple vs => exact ext_catchall h
        | set vs => exact ext_catchall h
        | map vs => exact ext_catchall h
        | slice a' b' c' => exact ext_catchall h
        | iterator hv vs => exact ext_catchall h
      | iterator hu us =>
        cases v with
        | var y => exact ihB y (.iterator hu us) s m h
        | iterator hv vs =>
          have h' : (if lenHint (.iterator hu us) != lenHint (.iterator hv vs)
              then some UR.fail else unifyZip glv n us vs s) = some (.ok m) := h
          by_cases hlen : (lenHint (.iterator hu us) !=
              lenHint (.iterator hv vs)) = true
          · rw [if_pos hlen] at h'; exact absurd h' (by simp)
          · rw [if_neg hlen] at h'; exact ihD us vs s m h'
        | atom b => exact ext_catchall h
        | tuple vs => exact ext_catchall h
        | list vs => exact ext_catchall h
        | set vs => exact ext_catchall h
        | map vs => exact ext_catchall h
        | slice a' b' c' => exact ext_catchall h
      | set us =>
        cases v with
        | var y => exact ihB y (.set us) s m h
        | set vs =>
          have h' : (if (us.filter
                (fun x => !(vs.any (fun y => tbeq x y)))).length !=
              (vs.filter (fun y => !(us.any (fun x => tbeq x y)))).length then
              some UR.fail
            else unifyZip glv n
              (us.filter (fun x => !(vs.any (fun y => tbeq x y))))
              (vs.filter (fun y => !(us.any (fun x => tbeq x y)))) s) =
              some (.ok m) := h
          by_cases hlen : ((us.filter
                (fun x => !(vs.any (fun y => tbeq x y)))).length !=
              (vs.filter (fun y => !(us.any (fun x => tbeq x y)))).length) = true
          · rw [if_pos hlen] at h'; exact absurd h' (by simp)
          · rw [if_neg hlen] at h'; exact ihD _ _ s m h'
        | atom b => exact ext_catchall h
        | tuple vs => exact ext_catchall h
        | list vs => exact ext_catchall h
        | map vs => exact ext_catchall h
        | slice a' b' c' => exact ext_catchall h
        | iterator hv vs => exact ext_catchall h
      | map us =>
        cases v with
        | var y => exact ihB y (.map us) s m h
        | map vs =>
          have h' : (if us.length != vs.length then some UR.fail
              else unifyMap glv n us vs s) = some (.ok m) := h
          by_cases hlen : (us.length != vs.length) = true
          · rw [if_pos hlen] at h'; exact absurd h' (by simp)
          · rw [if_neg hlen] at h'; exact ihE us vs s m h'
        | atom b => exact ext_catchall h
        | tuple vs => exact ext_catchall h
        | list vs => exact ext_catchall h
        | set vs => exact ext_catchall h
        | slice a' b' c' => exact ext_catchall h
        | iterator hv vs => exact ext_catchall h
      | slice a b c =>
        cases v with
        | var y => exact ihB y (.slice a b c) s m h
        | slice a' b' c' =>
          refine seqStep a a' s _ m h (fun s1 h1 hrest1 => ?_)
          refine seqStep b b' s1 _ m hrest1 (fun s2 h2 hrest2 => ?_)
          exact ihA c c' s2 m hrest2
        | atom b' => exact ext_catchall h
        | tuple vs => exact ext_catchall h
        | list vs => exact ext_catchall h
        | set vs => exact ext_catchall h
        | map vs => exact ext_catchall h
        | iterator hv vs => exact ext_catchall h
    · -- unifyVar
      intro x v s m h
      have h' : (match walk glv s (.var x) with
        | none => none
        | some u_w =>
          if isvarB glv v then
            match walk glv s v with
            | none => none
            | some v' => unifyVarGo glv n x u_w v' s
          else unifyVarGo glv n x u_w v s) = some (.ok m) := h
      cases hw : walk glv s (.var x) with
      | none => rw [hw] at h'; cases h'
      | some u_w =>
        rw [hw] at h'
        have h2 : (if isvarB glv v = true then
            (match walk glv s v with
              | none => none
              | some v' => unifyVarGo glv n x u_w v' s)
          else unifyVarGo glv n x u_w v s) = some (.ok m) := h'
        have hkey : tbeq u_w (.var x) = true → slookup s (.var x) = none := by
          intro ht
          have : u_w = Term.var x := (tbeq_eq _ _).mp ht
          subst this
          exact walk_final hw (isvarB_var glv x)
        by_cases hv : isvarB glv v = true
        · rw [if_pos hv] at h2
          cases hwv : walk glv s v with
          | none => rw [hwv] at h2; cases h2
          | some v' =>
            rw [hwv] at h2
            exact ihC x u_w v' s m hkey h2
        · rw [if_neg hv] at h2
          exact ihC x u_w v s m hkey h2
    · -- unifyVarGo
      intro x u_w v' s m hkey h
      have h' : (if tbeq u_w (.var x) then
          some (if tbeq (.var x) v' then UR.ok s
            else UR.ok (assoc s (.var x) v'))
        else unifyCore glv n u_w v' s) = some (.ok m) := h
      by_cases ht : tbeq u_w (.var x) = true
      · rw [if_pos ht] at h'
        by_cases ht2 : tbeq (.var x) v' = true
        · rw [if_pos ht2] at h'
          simp at h'
          subst h'
          exact subExt_refl
        · rw [if_neg ht2] at h'
          simp at h'
          subst h'
          exact subExt_assoc (hkey ht)
      · rw [if_neg ht] at h'
        exact ihA u_w v' s m h'
    · -- unifyZip
      intro us vs s m h
      cases us with
      | nil =>
        have h' : (some (UR.ok s) : Option UR) = some (.ok m) := h
        simp at h'
        subst h'
        exact subExt_refl
      | cons u us =>
        cases vs with
        | nil =>
          have h' : (some (UR.ok s) : Option UR) = some (.ok m) := h
          simp at h'
          subst h'
          exact subExt_refl
        | cons v vs =>
          have h' : (match unifyCore glv n u v s with
            | none => none
            | some .fail => some .fail
            | some (.ok s') => unifyZip glv n us vs s') = some (.ok m) := h
          cases h1 : unifyCore glv n u v s with
          | none => rw [h1] at h'; cases h'
          | some r =>
            cases r with
            | fail => rw [h1] at h'; exact absurd h' (by simp)
            | ok s1 =>
              rw [h1] at h'
              exact subExt_trans (ihA u v s s1 h1) (ihD us vs s1 m h')
    · -- unifyMap
      intro ps vps s m h
      cases ps with
      | nil =>
        have h' : (some (UR.ok s) : Option UR) = some (.ok m) := h
        simp at h'
        subst h'
        exact subExt_refl
      | cons kv rest =>
        obtain ⟨k, uval⟩ := kv
        have h' : (match slookup vps k with
          | none => some UR.fail
          | some vval =>
            match unifyCore glv n uval vval s with
            | none => none
            | some .fail => some .fail
            | some (.ok s') => unifyMap glv n rest vps s') = some (.ok m) := h
        cases hl : slookup vps k with
        | none => rw [hl] at h'; exact absurd h' (by simp)
        | some vval =>
          rw [hl] at h'
          have h2 : (match unifyCore glv n uval vval s with
            | none => none
            | some .fail => some .fail
            | some (.ok s') => unifyMap glv n rest vps s') = some (.ok m) := h'
          cases h1 : unifyCore glv n uval vval s with
          | none => rw [h1] at h2; cases h2
          | some r =>
            cases r with
            | fail => rw [h1] at h2; exact absurd h2 (by simp)
            | ok s1 =>
              rw [h1] at h2
              exact subExt_trans (ihA uval vval s s1 h1)
                (ihE rest vps s1 m h2)

/-- C7. `unify` has no side effects on its inputs: the embedding is a pure
function of the input terms and substitution (nothing is mutated), and a
successful call only ever produces a fresh extension of `s` — every binding
present in `s` is still present, unchanged, in the result. -/
theorem claim7_unify_extends :
    ∀ (glv : List Term) (fuel : Nat) (u v : Term) (s m : Subst),
      unify glv fuel u v s = some (.ok m) →
      ∀ k w, slookup s k = some w → slookup m k = some w := by
  intro glv fuel u v s m h k w hk
  rw [unify] at h
  by_cases ht : tbeq u v = true
  · rw [if_pos ht] at h
    simp at h
    subst h
    exact hk
  · rw [if_neg ht] at h
    exact (unify_extends_aux glv fuel).1 u v s m h k w hk

theorem claim7_unify_extends_witness :
    slookup [(Term.var 0, Term.atom 9), (Term.var 1, Term.atom 7)]
      (Term.var 1) = some (Term.atom 7) :=
  claim7_unify_extends [] 20 (.var 0) (.atom 9) [(Term.var 1, Term.atom 7)]
    [(Term.var 0, Term.atom 9), (Term.var 1, Term.atom 7)] rfl
    (Term.var 1) (Term.atom 7) rfl

/-! C3 infrastructure: variable occurrences through container
reconstruction. -/

theorem occursVarL_append (x : Nat) (a b : List Term) :
    occursVarL x (a ++ b) = (occursVarL x a || occursVarL x b) := by
  induction a with
  | nil => simp [occursVarL]
  | cons t ts ih => simp [occursVarL, ih, Bool.or_assoc]

theorem occursVarP_append (x : Nat) (a b : List (Term × Term)) :
    occursVarP x (a ++ b) = (occursVarP x a || occursVarP x b) := by
  induction a with
  | nil => simp [occursVarP]
  | cons p ps ih =>
    obtain ⟨k, v⟩ := p
    simp [occursVarP, ih, Bool.or_assoc]

theorem setCtorGo_occurs :
    ∀ (l acc out : List Term), setCtorGo acc l = some out →
      ∀ x, occursVarL x out = true →
        occursVarL x acc = true ∨ occursVarL x l = true := by
  intro l
  induction l with
  | nil =>
    intro acc out h x ho
    rw [setCtorGo] at h
    cases h
    exact Or.inl ho
  | cons t ts ih =>
    intro acc out h x ho
    rw [setCtorGo] at h
    cases hi : setInsert acc t with
    | none => rw [hi] at h; cases h
    | some acc' =>
      rw [hi] at h
      rw [setInsert] at hi
      rcases ih acc' out h x ho with h1 | h2
      · by_cases hh : hashable t = true
        · rw [if_pos hh] at hi
          by_cases hmem : (acc.any fun y => tbeq y t) = true
          · rw [if_pos hmem] at hi
            cases hi
            exact Or.inl h1
          · rw [if_neg hmem] at hi
            cases hi
            rw [occursVarL_append] at h1
            rcases Bool.or_eq_true_iff.mp h1 with h3 | h4
            · exact Or.inl h3
            · refine Or.inr ?_
              rw [occursVarL] at h4 ⊢
              simp [occursVarL] at h4
              simp [h4]
        · rw [if_neg hh] at hi; cases hi
      · refine Or.inr ?_
        rw [occursVarL]
        simp [h2]

theorem occursVarP_replace (x : Nat) (k v : Term) :
    ∀ acc : List (Term × Term),
      occursVarP x (acc.map (fun p => if tbeq p.1 k then (p.1, v) else p)) =
        true →
      occursVarP x acc = true ∨ occursVar x v = true := by
  intro acc
  induction acc with
  | nil => intro h; rw [List.map_nil] at h; exact Or.inl h
  | cons p ps ih =>
    obtain ⟨k0, v0⟩ := p
    intro h
    rw [List.map_cons] at h
    by_cases hk : tbeq (k0, v0).1 k = true
    · rw [if_pos hk] at h
      rw [occursVarP] at h
      rcases Bool.or_eq_true_iff.mp h with h1 | h2
      · rcases Bool.or_eq_true_iff.mp h1 with h3 | h4
        · exact Or.inl (by rw [occursVarP]; simp [h3])
        · exact Or.inr h4
      · rcases ih h2 with h3 | h4
        · exact Or.inl (by rw [occursVarP]; simp [h3])
        · exact Or.inr h4
    · rw [if_neg hk] at h
      rw [occursVarP] at h
      rcases Bool.or_eq_true_iff.mp h with h1 | h2
      · rcases Bool.or_eq_true_iff.mp h1 with h3 | h4
        · exact Or.inl (by rw [occursVarP]; simp [h3])
        · exact Or.inl (by rw [occursVarP]; simp [h4])
      · rcases ih h2 with h3 | h4
        · exact Or.inl (by rw [occursVarP]; simp [h3])
        · exact Or.inr h4

theorem dictCtorGo_occurs :
    ∀ (l acc out : List (Term × Term)), dictCtorGo acc l = some out →
      ∀ x, occursVarP x out = true →
        occursVarP x acc = true ∨ occursVarP x l = true := by
  intro l
  induction l with
  | nil =>
    intro acc out h x ho
    rw [dictCtorGo] at h
    cases h
    exact Or.inl ho
  | cons p ps ih =>
    obtain ⟨k, v⟩ := p
    intro acc out h x ho
    rw [dictCtorGo] at h
    cases hi : dictInsert acc k v with
    | none => rw [hi] at h; cases h
    | some acc' =>
      rw [hi] at h
      rw [dictInsert] at hi
      rcases ih acc' out h x ho with h1 | h2
      · by_cases hh : hashable k = true
        · rw [if_pos hh] at hi
          by_cases hmem : (acc.any fun p => tbeq p.1 k) = true
          · rw [if_pos hmem] at hi
            cases hi
            rcases occursVarP_replace x k v acc h1 with h3 | h4
            · exact Or.inl h3
            · exact Or.inr (by rw [occursVarP]; simp [h4])
          · rw [if_neg hmem] at hi
            cases hi
            rw [occursVarP_append] at h1
            rcases Bool.or_eq_true_iff.mp h1 with h3 | h4
            · exact Or.inl h3
            · refine Or.inr ?_
              rw [occursVarP] at h4 ⊢
              simp [occursVarP] at h4
              rcases h4 with h5 | h6
              · simp [h5]
              · simp [h6]
        · rw [if_neg hh] at hi; cases hi
      · refine Or.inr ?_
        rw [occursVarP]
        simp [h2]

theorem reify_no_bound_aux (glv : List Term) :
    ∀ n : Nat,
      (∀ s t r, reifyF glv n s t = some r →
        ∀ x, occursVar x r = true → slookup s (.var x) = none) ∧
      (∀ s ts rs, reifyL glv n s ts = some rs →
        ∀ x, occursVarL x rs = true → slookup s (.var x) = none) ∧
      (∀ s kvs rs, reifyP glv n s kvs = some rs →
        ∀ x, occursVarP x rs = true → slookup s (.var x) = none) := by
  intro n
  induction n with
  | zero =>
    refine ⟨?_, ?_, ?_⟩
    · intro s t r h; cases h
    · intro s ts rs h; cases h
    · intro s kvs rs h; cases h
  | succ n ih =>
    obtain ⟨ihA, ihB, ihC⟩ := ih
    refine ⟨?_, ?_, ?_⟩
    · intro s t r h x ho
      cases t with
      | atom a =>
        have h' : (some (Term.atom a) : Option Term) = some r := h
        cases h'
        rw [occursVar] at ho
        cases ho
      | var y =>
        have h' : (match walk glv s (.var y) with
          | none => none
          | some w =>
            if tbeq w (.var y) then some (.var y)
            else reifyF glv n s w) = some r := h
        cases hw : walk glv s (.var y) with
        | none => rw [hw] at h'; cases h'
        | some w =>
          rw [hw] at h'
          have h2 : (if tbeq w (.var y) then some (Term.var y)
              else reifyF glv n s w) = some r := h'
          by_cases ht : tbeq w (.var y) = true
          · rw [if_pos ht] at h2
            cases h2
            rw [occursVar] at ho
            have hxy : x = y := by simpa using ho
            subst hxy
            have hww : w = Term.var x := (tbeq_eq _ _).mp ht
            subst hww
            exact walk_final hw (isvarB_var glv x)
          · rw [if_neg ht] at h2
            exact ihA s w r h2 x ho
      | tuple ts =>
        have h' : (reifyL glv n s ts).map Term.tuple = some r := h
        cases hrl : reifyL glv n s ts with
        | none => rw [hrl] at h'; cases h'
        | some rs =>
          rw [hrl] at h'
          simp at h'
          subst h'
          exact ihB s ts rs hrl x ho
      | list ts =>
        have h' : (reifyL glv n s ts).map Term.list = some r := h
        cases hrl : reifyL glv n s ts with
        | none => rw [hrl] at h'; cases h'
        | some rs =>
          rw [hrl] at h'
          simp at h'
          subst h'
          exact ihB s ts rs hrl x ho
      | iterator hint ts =>
        have h' : (reifyL glv n s ts).map
            (fun rs => Term.iterator (some rs.length) rs) = some r := h
        cases hrl : reifyL glv n s ts with
        | none => rw [hrl] at h'; cases h'
        | some rs =>
          rw [hrl] at h'
          simp at h'
          subst h'
          exact ihB s ts rs hrl x ho
      | set ts =>
        have h' : (reifyL glv n s ts).bind
            (fun rs => (setCtor rs).map Term.set) = some r := h
        cases hrl : reifyL glv n s ts with
        | none => rw [hrl] at h'; cases h'
        | some rs =>
          rw [hrl] at h'
          simp at h'
          obtain ⟨ds, hds, hr⟩ := h'
          subst hr
          rcases setCtorGo_occurs rs [] ds hds x ho with h1 | h2
          · rw [occursVarL] at h1; cases h1
          · exact ihB s ts rs hrl x h2
      | map kvs =>
        have h' : (reifyP glv n s kvs).bind
            (fun rs => (dictCtor rs).map Term.map) = some r := h
        cases hrl : reifyP glv n s kvs with
        | none => rw [hrl] at h'; cases h'
        | some rs =>
          rw [hrl] at h'
          simp at h'
          obtain ⟨ds, hds, hr⟩ := h'
          subst hr
          rcases dictCtorGo_occurs rs [] ds hds x ho with h1 | h2
          · rw [occursVarP] at h1; cases h1
          · exact ihC s kvs rs hrl x h2
      | slice a b c =>
        have h' : (match reifyF glv n s a with
          | none => none
          | some a' =>
            match reifyF glv n s b with
            | none => none
            | some b' =>
              match reifyF glv n s c with
              | none => none
              | some c' => some (Term.slice a' b' c')) = some r := h
        cases ha : reifyF glv n s a with
        | none => rw [ha] at h'; cases h'
        | some a' =>
          rw [ha] at h'
          have h2 : (match reifyF glv n s b with
            | none => none
            | some b' =>
              match reifyF glv n s c with
              | none => none
              | some c' => some (Term.slice a' b' c')) = some r := h'
          cases hb : reifyF glv n s b with
          | none => rw [hb] at h2; cases h2
          | some b' =>
            rw [hb] at h2
            have h3 : (match reifyF glv n s c with
              | none => none
              | some c' => some (Term.slice a' b' c')) = some r := h2
            cases hc : reifyF glv n s c with
            | none => rw [hc] at h3; cases h3
            | some c' =>
              rw [hc] at h3
              cases h3
              rw [occursVar] at ho
              rcases Bool.or_eq_true_iff.mp ho with h4 | h5
              · rcases Bool.or_eq_true_iff.mp h4 with h6 | h7
                · exact ihA s a a' ha x h6
                · exact ihA s b b' hb x h7
              · exact ihA s c c' hc x h5
    · intro s ts rs h x ho
      cases ts with
      | nil =>
        have h' : (some [] : Option (List Term)) = some rs := h
        cases h'
        rw [occursVarL] at ho
        cases ho
      | cons t ts =>
        have h' : (match reifyF glv n s t with
          | none => none
          | some r =>
            match reifyL glv n s ts with
            | none => none
            | some rs => some (r :: rs)) = some rs := h
        cases h1 : reifyF glv n s t with
        | none => rw [h1] at h'; cases h'
        | some r0 =>
          rw [h1] at h'
          have h2 : (match reifyL glv n s ts with
            | none => none
            | some rs => some (r0 :: rs)) = some rs := h'
          cases h3 : reifyL glv n s ts with
          | none => rw [h3] at h2; cases h2
          | some rs0 =>
            rw [h3] at h2
            cases h2
            rw [occursVarL] at ho
            rcases Bool.or_eq_true_iff.mp ho with h4 | h5
            · exact ihA s t r0 h1 x h4
            · exact ihB s ts rs0 h3 x h5
    · intro s kvs rs h x ho
      cases kvs with
      | nil =>
        have h' : (some [] : Option (List (Term × Term))) = some rs := h
        cases h'
        rw [occursVarP] at ho
        cases ho
      | cons kv kvs =>
        obtain ⟨k, v⟩ := kv
        have h' : (match reifyF glv n s k with
          | none => none
          | some k' =>
            match reifyF glv n s v with
            | none => none
            | some v' =>
              match reifyP glv n s kvs with
              | none => none
              | some rest => some ((k', v') :: rest)) = some rs := h
        cases h1 : reifyF glv n s k with
        | none => rw [h1] at h'; cases h'
        | some k' =>
          rw [h1] at h'
          have h2 : (match reifyF glv n s v with
            | none => none
            | some v' =>
              match reifyP glv n s kvs with
              | none => none
              | some rest => some ((k', v') :: rest)) = some rs := h'
          cases h3 : reifyF glv n s v with
          | none => rw [h3] at h2; cases h2
          | some v' =>
            rw [h3] at h2
            have h4 : (match reifyP glv n s kvs with
              | none => none
              | some rest => some ((k', v') :: rest)) = some rs := h2
            cases h5 : reifyP glv n s kvs with
            | none => rw [h5] at h4; cases h4
            | some rest =>
              rw [h5] at h4
              cases h4
              rw [occursVarP] at ho
              rcases Bool.or_eq_true_iff.mp ho with h6 | h7
              · rcases Bool.or_eq_true_iff.mp h6 with h8 | h9
                · exact ihA s k k' h1 x h8
                · exact ihA s v v' h3 x h9
              · exact ihC s kvs rest h5 x h7

/-- C3. The result of a completed `reify(t, s)` contains no logic variable
that is bound (directly, or transitively through the walked chains) in `s`:
every variable occurring in the result is not a key of `s`.  Logic variables
unbound in `s` pass through reification unchanged. -/
theorem claim3_reify_resolves_bound :
    ∀ (glv : List Term) (n : Nat) (s : Subst) (t r : Term),
      reifyF glv n s t = some r →
      (∀ x, occursVar x r = true → slookup s (.var x) = none) ∧
      (∀ x m, slookup s (.var x) = none →
        reifyF glv (m + 1) s (.var x) = some (.var x)) := by
  intro glv n s t r h
  constructor
  · exact fun x => (reify_no_bound_aux glv n).1 s t r h x
  · intro x m hx
    show (match walk glv s (.var x) with
      | none => none
      | some w =>
        if tbeq w (.var x) then some (Term.var x)
        else reifyF glv m s w) = some (.var x)
    rw [walk_var_unbound hx]
    show (if tbeq (Term.var x) (Term.var x) = true then some (Term.var x)
      else reifyF glv m s (Term.var x)) = some (Term.var x)
    rw [tbeq_refl]
    simp

theorem claim3_reify_resolves_bound_witness :
    slookup [(Term.var 0, Term.atom 5)] (Term.var 1) = none ∧
    reifyF [] 3 [(Term.var 0, Term.atom 5)] (Term.var 1) =
      some (Term.var 1) :=
  ⟨(claim3_reify_resolves_bound [] 9 [(Term.var 0, Term.atom 5)]
      (.tuple [.var 0, .var 1]) (.tuple [.atom 5, .var 1]) rfl).1 1 rfl,
    (claim3_reify_resolves_bound [] 9 [(Term.var 0, Term.atom 5)]
      (.tuple [.var 0, .var 1]) (.tuple [.atom 5, .var 1]) rfl).2 1 2 rfl⟩

/-! C6 infrastructure: fuel monotonicity of reification, fixpoint lemmas for
the set/dict constructors, and the reified-result fixpoint. -/

theorem reify_mono_aux (glv : List Term) :
    ∀ n : Nat,
      (∀ s t r, reifyF glv n s t = some r → reifyF glv (n + 1) s t = some r) ∧
      (∀ s ts rs, reifyL glv n s ts = some rs →
        reifyL glv (n + 1) s ts = some rs) ∧
      (∀ s kvs rs, reifyP glv n s kvs = some rs →
        reifyP glv (n + 1) s kvs = some rs) := by
  intro n
  induction n with
  | zero =>
    refine ⟨?_, ?_, ?_⟩
    · intro s t r h; cases h
    · intro s ts rs h; cases h
    · intro s kvs rs h; cases h
  | succ n ih =>
    obtain ⟨ihA, ihB, ihC⟩ := ih
    refine ⟨?_, ?_, ?_⟩
    · intro s t r h
      cases t with
      | atom a => exact h
      | var y =>
        have h' : (match walk glv s (.var y) with
          | none => none
          | some w =>
            if tbeq w (.var y) then some (.var y)
            else reifyF glv n s w) = some r := h
        show (match walk glv s (.var y) with
          | none => none
          | some w =>
            if tbeq w (.var y) then some (.var y)
            else reifyF glv (n + 1) s w) = some r
        cases hw : walk glv s (.var y) with
        | none => rw [hw] at h'; cases h'
        | some w =>
          rw [hw] at h'
          by_cases ht : tbeq w (.var y) = true
          · simp only [ht, if_true] at h' ⊢
            exact h'
          · simp only [ht, if_false, Bool.false_eq_true] at h' ⊢
            exact ihA s w r h'
      | tuple ts =>
        have h' : (reifyL glv n s ts).map Term.tuple = some r := h
        show (reifyL glv (n + 1) s ts).map Term.tuple = some r
        cases hrl : reifyL glv n s ts with
        | none => rw [hrl] at h'; cases h'
        | some rs => rw [ihB s ts rs hrl]; rw [hrl] at h'; exact h'
      | list ts =>
        have h' : (reifyL glv n s ts).map Term.list = some r := h
        show (reifyL glv (n + 1) s ts).map Term.list = some r
        cases hrl : reifyL glv n s ts with
        | none => rw [hrl] at h'; cases h'
        | some rs => rw [ihB s ts rs hrl]; rw [hrl] at h'; exact h'
      | iterator hint ts =>
        have h' : (reifyL glv n s ts).map
            (fun rs => Term.iterator (some rs.length) rs) = some r := h
        show (reifyL glv (n + 1) s ts).map
            (fun rs => Term.iterator (some rs.length) rs) = some r
        cases hrl : reifyL glv n s ts with
        | none => rw [hrl] at h'; cases h'
        | some rs => rw [ihB s ts rs hrl]; rw [hrl] at h'; exact h'
      | set ts =>
        have h' : (reifyL glv n s ts).bind
            (fun rs => (setCtor rs).map Term.set) = some r := h
        show (reifyL glv (n + 1) s ts).bind
            (fun rs => (setCtor rs).map Term.set) = some r
        cases hrl : reifyL glv n s ts with
        | none => rw [hrl] at h'; cases h'
        | some rs => rw [ihB s ts rs hrl]; rw [hrl] at h'; exact h'
      | map kvs =>
        have h' : (reifyP glv n s kvs).bind
            (fun rs => (dictCtor rs).map Term.map) = some r := h
        show (reifyP glv (n + 1) s kvs).bind
            (fun rs => (dictCtor rs).map Term.map) = some r
        cases hrl : reifyP glv n s kvs with
        | none => rw [hrl] at h'; cases h'
        | some rs => rw [ihC s kvs rs hrl]; rw [hrl] at h'; exact h'
      | slice a b c =>
        have h' : (match reifyF glv n s a with
          | none => none
          | some a' =>
            match reifyF glv n s b with
            | none => none
            | some b' =>
              match reifyF glv n s c with
              | none => none
              | some c' => some (Term.slice a' b' c')) = some r := h
        show (match reifyF glv (n + 1) s a with
          | none => none
          | some a' =>
            match reifyF glv (n + 1) s b with
            | none => none
            | some b' =>
              match reifyF glv (n + 1) s c with
              | none => none
              | some c' => some (Term.slice a' b' c')) = some r
        cases ha : reifyF glv n s a with
        | none => rw [ha] at h'; cases h'
        | some a' =>
          rw [ha] at h'
          rw [ihA s a a' ha]
          cases hb : reifyF glv n s b with
          | none => rw [hb] at h'; cases h'
          | some b' =>
            rw [hb] at h'
            rw [ihA s b b' hb]
            cases hc : reifyF glv n s c with
            | none => rw [hc] at h'; cases h'
            | some c' =>
              rw [hc] at h'
              rw [ihA s c c' hc]
              exact h'
    · intro s ts rs h
      cases ts with
      | nil => exact h
      | cons t ts =>
        have h' : (match reifyF glv n s t with
          | none => none
          | some r =>
            match reifyL glv n s ts with
            | none => none
            | some rs => some (r :: rs)) = some rs := h
        show (match reifyF glv (n + 1) s t with
          | none => none
          | some r =>
            match reifyL glv (n + 1) s ts with
            | none => none
            | some rs => some (r :: rs)) = some rs
        cases h1 : reifyF glv n s t with
        | none => rw [h1] at h'; cases h'
        | some r0 =>
          rw [h1] at h'
          rw [ihA s t r0 h1]
          cases h2 : reifyL glv n s ts with
          | none => rw [h2] at h'; cases h'
          | some rs0 =>
            rw [h2] at h'
            rw [ihB s ts rs0 h2]
            exact h'
    · intro s kvs rs h
      cases kvs with
      | nil => exact h
      | cons kv kvs =>
        obtain ⟨k, v⟩ := kv
        have h' : (match reifyF glv n s k with
          | none => none
          | some k' =>
            match reifyF glv n s v with
            | none => none
            | some v' =>
              match reifyP glv n s kvs with
              | none => none
              | some rest => some ((k', v') :: rest)) = some rs := h
        show (match reifyF glv (n + 1) s k with
          | none => none
          | some k' =>
            match reifyF glv (n + 1) s v with
            | none => none
            | some v' =>
              match reifyP glv (n + 1) s kvs with
              | none => none
              | some rest => some ((k', v') :: rest)) = some rs
        cases h1 : reifyF glv n s k with
        | none => rw [h1] at h'; cases h'
        | some k' =>
          rw [h1] at h'
          rw [ihA s k k' h1]
          cases h2 : reifyF glv n s v with
          | none => rw [h2] at h'; cases h'
          | some v' =>
            rw [h2] at h'
            rw [ihA s v v' h2]
            cases h3 : reifyP glv n s kvs with
            | none => rw [h3] at h'; cases h'
            | some rest =>
              rw [h3] at h'
              rw [ihC s kvs rest h3]
              exact h'

theorem reifyF_mono {glv : List Term} {n m : Nat} {s : Subst} {t r : Term}
    (hnm : n ≤ m) (h : reifyF glv n s t = some r) :
    reifyF glv m s t = some r := by
  induction m with
  | zero => cases Nat.le_zero.mp hnm; exact h
  | succ m ih =>
    rcases Nat.lt_or_ge n (m + 1) with hlt | hge
    · exact (reify_mono_aux glv m).1 s t r (ih (Nat.lt_succ_iff.mp hlt))
    · cases Nat.le_antisymm hnm hge; exact h

theorem reifyL_mono {glv : List Term} {n m : Nat} {s : Subst}
    {ts rs : List Term} (hnm : n ≤ m) (h : reifyL glv n s ts = some rs) :
    reifyL glv m s ts = some rs := by
  induction m with
  | zero => cases Nat.le_zero.mp hnm; exact h
  | succ m ih =>
    rcases Nat.lt_or_ge n (m + 1) with hlt | hge
    · exact (reify_mono_aux glv m).2.1 s ts rs (ih (Nat.lt_succ_iff.mp hlt))
    · cases Nat.le_antisymm hnm hge; exact h

theorem reifyP_mono {glv : List Term} {n m : Nat} {s : Subst}
    {kvs rs : List (Term × Term)} (hnm : n ≤ m)
    (h : reifyP glv n s kvs = some rs) : reifyP glv m s kvs = some rs := by
  induction m with
  | zero => cases Nat.le_zero.mp hnm; exact h
  | succ m ih =>
    rcases Nat.lt_or_ge n (m + 1) with hlt | hge
    · exact (reify_mono_aux glv m).2.2 s kvs rs (ih (Nat.lt_succ_iff.mp hlt))
    · cases Nat.le_antisymm hnm hge; exact h

theorem any_tbeq_left {l : List Term} {x : Term} :
    (l.any fun y => tbeq y x) = true ↔ x ∈ l := by
  simp only [List.any_eq_true, tbeq_eq]
  constructor
  · rintro ⟨y, hy, rfl⟩; exact hy
  · intro hx; exact ⟨x, hx, rfl⟩

theorem anyKey_tbeq {l : List (Term × Term)} {k : Term} :
    (l.any fun p => tbeq p.1 k) = true ↔ k ∈ l.map Prod.fst := by
  simp only [List.any_eq_true, tbeq_eq, List.mem_map]

theorem setCtorGo_mem :
    ∀ (l acc out : List Term), setCtorGo acc l = some out →
      ∀ d ∈ out, d ∈ acc ∨ d ∈ l := by
  intro l
  induction l with
  | nil =>
    intro acc out h d hd
    rw [setCtorGo] at h
    cases h
    exact Or.inl hd
  | cons x xs ih =>
    intro acc out h d hd
    rw [setCtorGo] at h
    cases hi : setInsert acc x with
    | none => rw [hi] at h; cases h
    | some acc' =>
      rw [hi] at h
      rw [setInsert] at hi
      by_cases hh : hashable x = true
      · rw [if_pos hh] at hi
        by_cases hmem : (acc.any fun y => tbeq y x) = true
        · rw [if_pos hmem] at hi
          cases hi
          rcases ih acc out h d hd with h1 | h2
          · exact Or.inl h1
          · exact Or.inr (List.mem_cons_of_mem _ h2)
        · rw [if_neg hmem] at hi
          cases hi
          rcases ih (acc ++ [x]) out h d hd with h1 | h2
          · rcases List.mem_append.mp h1 with h3 | h4
            · exact Or.inl h3
            · rcases List.mem_singleton.mp h4 with rfl
              exact Or.inr (List.mem_cons_self _ _)
          · exact Or.inr (List.mem_cons_of_mem _ h2)
      · rw [if_neg hh] at hi; cases hi

theorem setCtorGo_inv :
    ∀ (l acc out : List Term), setCtorGo acc l = some out →
      acc.Nodup → (∀ a ∈ acc, hashable a = true) →
      out.Nodup ∧ ∀ a ∈ out, hashable a = true := by
  intro l
  induction l with
  | nil =>
    intro acc out h hnd hha
    rw [setCtorGo] at h
    cases h
    exact ⟨hnd, hha⟩
  | cons x xs ih =>
    intro acc out h hnd hha
    rw [setCtorGo] at h
    cases hi : setInsert acc x with
    | none => rw [hi] at h; cases h
    | some acc' =>
      rw [hi] at h
      rw [setInsert] at hi
      by_cases hh : hashable x = true
      · rw [if_pos hh] at hi
        by_cases hmem : (acc.any fun y => tbeq y x) = true
        · rw [if_pos hmem] at hi
          cases hi
          exact ih acc out h hnd hha
        · rw [if_neg hmem] at hi
          cases hi
          refine ih (acc ++ [x]) out h ?_ ?_
          · have hnx : x ∉ acc := fun hx => hmem (any_tbeq_left.mpr hx)
            simp [List.nodup_append, hnd, hnx]
          · intro a ha
            rcases List.mem_append.mp ha with h3 | h4
            · exact hha a h3
            · rcases List.mem_singleton.mp h4 with rfl
              exact hh
      · rw [if_neg hh] at hi; cases hi

theorem setCtorGo_fix :
    ∀ (l acc : List Term), (acc ++ l).Nodup →
      (∀ a ∈ l, hashable a = true) → setCtorGo acc l = some (acc ++ l) := by
  intro l
  induction l with
  | nil => intro acc _ _; simp [setCtorGo]
  | cons x xs ih =>
    intro acc hnd hha
    rw [setCtorGo, setInsert, if_pos (hha x (List.mem_cons_self _ _))]
    have hnx : x ∉ acc := by
      intro hx
      rw [List.nodup_append] at hnd
      exact hnd.2.2 hx (List.mem_cons_self _ _)
    have hmem : (acc.any fun y => tbeq y x) = false := by
      cases hany : (acc.any fun y => tbeq y x) with
      | false => rfl
      | true => exact absurd (any_tbeq_left.mp hany) hnx
    rw [hmem]
    show setCtorGo (acc ++ [x]) xs = some (acc ++ x :: xs)
    have heq : acc ++ x :: xs = (acc ++ [x]) ++ xs := by simp
    rw [heq]
    refine ih (acc ++ [x]) (by rw [← heq]; exact hnd) ?_
    exact fun a ha => hha a (List.mem_cons_of_mem _ ha)

theorem replace_keys (k v : Term) :
    ∀ acc : List (Term × Term),
      (acc.map (fun p => if tbeq p.1 k then (p.1, v) else p)).map Prod.fst =
        acc.map Prod.fst := by
  intro acc
  induction acc with
  | nil => rfl
  | cons p ps ih =>
    by_cases ht : tbeq p.1 k = true <;>
      simp [ht, ih]

theorem replace_mem {k v : Term} {acc : List (Term × Term)} {p : Term × Term}
    (hp : p ∈ acc.map (fun q => if tbeq q.1 k then (q.1, v) else q)) :
    ∃ q ∈ acc, p.1 = q.1 ∧ (p.2 = q.2 ∨ p.2 = v) := by
  rcases List.mem_map.mp hp with ⟨q, hq, hfq⟩
  by_cases ht : tbeq q.1 k = true
  · rw [if_pos ht] at hfq
    subst hfq
    exact ⟨q, hq, rfl, Or.inr rfl⟩
  · rw [if_neg ht] at hfq
    subst hfq
    exact ⟨q, hq, rfl, Or.inl rfl⟩

theorem replace_values {k v : Term} {acc : List (Term × Term)} {x : Term}
    (hx : x ∈ (acc.map (fun q => if tbeq q.1 k then (q.1, v) else q)).map
      Prod.snd) :
    x ∈ acc.map Prod.snd ∨ x = v := by
  rcases List.mem_map.mp hx with ⟨p, hp, hps⟩
  rcases replace_mem hp with ⟨q, hq, _, hval⟩
  rcases hval with h1 | h2
  · exact Or.inl (List.mem_map.mpr ⟨q, hq, by rw [← h1, hps]⟩)
  · exact Or.inr (by rw [← hps, h2])

theorem dictCtorGo_mem :
    ∀ (l acc out : List (Term × Term)), dictCtorGo acc l = some out →
      ∀ p ∈ out,
        (p.1 ∈ acc.map Prod.fst ∨ p.1 ∈ l.map Prod.fst) ∧
        (p.2 ∈ acc.map Prod.snd ∨ p.2 ∈ l.map Prod.snd) := by
  intro l
  induction l with
  | nil =>
    intro acc out h p hp
    rw [dictCtorGo] at h
    cases h
    exact ⟨Or.inl (List.mem_map.mpr ⟨p, hp, rfl⟩),
      Or.inl (List.mem_map.mpr ⟨p, hp, rfl⟩)⟩
  | cons kv xs ih =>
    obtain ⟨k, v⟩ := kv
    intro acc out h p hp
    rw [dictCtorGo] at h
    cases hi : dictInsert acc k v with
    | none => rw [hi] at h; cases h
    | some acc' =>
      rw [hi] at h
      rw [dictInsert] at hi
      by_cases hh : hashable k = true
      · rw [if_pos hh] at hi
        by_cases hmem : (acc.any fun p => tbeq p.1 k) = true
        · rw [if_pos hmem] at hi
          cases hi
          obtain ⟨h1, h2⟩ := ih _ out h p hp
          constructor
          · rcases h1 with h3 | h4
            · rw [replace_keys] at h3
              exact Or.inl h3
            · exact Or.inr (by simp [List.map_cons] at h4 ⊢; tauto)
          · rcases h2 with h3 | h4
            · rcases replace_values h3 with h5 | h6
              · exact Or.inl h5
              · exact Or.inr (by simp [h6])
            · exact Or.inr (by simp [List.map_cons] at h4 ⊢; tauto)
        · rw [if_neg hmem] at hi
          cases hi
          obtain ⟨h1, h2⟩ := ih _ out h p hp
          constructor
          · rcases h1 with h3 | h4
            · rw [List.map_append] at h3
              rcases List.mem_append.mp h3 with h5 | h6
              · exact Or.inl h5
              · simp at h6
                exact Or.inr (by simp [h6])
            · exact Or.inr (by simp [List.map_cons] at h4 ⊢; tauto)
          · rcases h2 with h3 | h4
            · rw [List.map_append] at h3
              rcases List.mem_append.mp h3 with h5 | h6
              · exact Or.inl h5
              · simp at h6
                exact Or.inr (by simp [h6])
            · exact Or.inr (by simp [List.map_cons] at h4 ⊢; tauto)
      · rw [if_neg hh] at hi; cases hi

theorem dictCtorGo_inv :
    ∀ (l acc out : List (Term × Term)), dictCtorGo acc l = some out →
      (acc.map Prod.fst).Nodup → (∀ p ∈ acc, hashable p.1 = true) →
      (out.map Prod.fst).Nodup ∧ ∀ p ∈ out, hashable p.1 = true := by
  intro l
  induction l with
  | nil =>
    intro acc out h hnd hha
    rw [dictCtorGo] at h
    cases h
    exact ⟨hnd, hha⟩
  | cons kv xs ih =>
    obtain ⟨k, v⟩ := kv
    intro acc out h hnd hha
    rw [dictCtorGo] at h
    cases hi : dictInsert acc k v with
    | none => rw [hi] at h; cases h
    | some acc' =>
      rw [hi] at h
      rw [dictInsert] at hi
      by_cases hh : hashable k = true
      · rw [if_pos hh] at hi
        by_cases hmem : (acc.any fun p => tbeq p.1 k) = true
        · rw [if_pos hmem] at hi
          cases hi
          refine ih _ out h ?_ ?_
          · rw [replace_keys]; exact hnd
          · intro p hp
            rcases replace_mem hp with ⟨q, hq, hk1, _⟩
            rw [hk1]
            exact hha q hq
        · rw [if_neg hmem] at hi
          cases hi
          refine ih _ out h ?_ ?_
          · have hnk : k ∉ acc.map Prod.fst :=
              fun hk => hmem (anyKey_tbeq.mpr hk)
            simp [List.map_append, List.nodup_append, hnd, hnk]
          · intro p hp
            rcases List.mem_append.mp hp with h3 | h4
            · exact hha p h3
            · rcases List.mem_singleton.mp h4 with rfl
              exact hh
      · rw [if_neg hh] at hi; cases hi

theorem dictCtorGo_fix :
    ∀ (l acc : List (Term × Term)), ((acc ++ l).map Prod.fst).Nodup →
      (∀ p ∈ l, hashable p.1 = true) →
      dictCtorGo acc l = some (acc ++ l) := by
  intro l
  induction l with
  | nil => intro acc _ _; simp [dictCtorGo]
  | cons kv xs ih =>
    obtain ⟨k, v⟩ := kv
    intro acc hnd hha
    rw [dictCtorGo, dictInsert,
      if_pos (hha (k, v) (List.mem_cons_self _ _))]
    have hnk : k ∉ acc.map Prod.fst := by
      intro hk
      rw [List.map_append, List.nodup_append] at hnd
      exact hnd.2.2 hk (by simp)
    have hmem : (acc.any fun p => tbeq p.1 k) = false := by
      cases hany : (acc.any fun p => tbeq p.1 k) with
      | false => rfl
      | true => exact absurd (anyKey_tbeq.mp hany) hnk
    rw [hmem]
    show dictCtorGo (acc ++ [(k, v)]) xs = some (acc ++ (k, v) :: xs)
    have heq : acc ++ (k, v) :: xs = (acc ++ [(k, v)]) ++ xs := by simp
    rw [heq]
    refine ih (acc ++ [(k, v)]) (by rw [← heq]; exact hnd) ?_
    exact fun p hp => hha p (List.mem_cons_of_mem _ hp)

theorem reifyL_of_pointwise {glv : List Term} {s : Subst} :
    ∀ rs : List Term, (∀ r ∈ rs, ∃ m, reifyF glv m s r = some r) →
      ∃ M, reifyL glv M s rs = some rs := by
  intro rs
  induction rs with
  | nil => intro _; exact ⟨1, rfl⟩
  | cons r rest ih =>
    intro hpt
    obtain ⟨m1, h1⟩ := hpt r (List.mem_cons_self _ _)
    obtain ⟨M2, h2⟩ := ih (fun x hx => hpt x (List.mem_cons_of_mem _ hx))
    refine ⟨max m1 M2 + 1, ?_⟩
    have h1' := reifyF_mono (Nat.le_max_left m1 M2) h1
    have h2' := reifyL_mono (Nat.le_max_right m1 M2) h2
    show (match reifyF glv (max m1 M2) s r with
      | none => none
      | some r0 =>
        match reifyL glv (max m1 M2) s rest with
        | none => none
        | some rs0 => some (r0 :: rs0)) = some (r :: rest)
    rw [h1', h2']

theorem reifyP_of_pointwise {glv : List Term} {s : Subst} :
    ∀ rs : List (Term × Term),
      (∀ p ∈ rs, (∃ m, reifyF glv m s p.1 = some p.1) ∧
        (∃ m, reifyF glv m s p.2 = some p.2)) →
      ∃ M, reifyP glv M s rs = some rs := by
  intro rs
  induction rs with
  | nil => intro _; exact ⟨1, rfl⟩
  | cons p rest ih =>
    obtain ⟨k, v⟩ := p
    intro hpt
    obtain ⟨⟨m1, h1⟩, ⟨m2, h2⟩⟩ := hpt (k, v) (List.mem_cons_self _ _)
    obtain ⟨M3, h3⟩ := ih (fun x hx => hpt x (List.mem_cons_of_mem _ hx))
    refine ⟨max m1 (max m2 M3) + 1, ?_⟩
    have h1' := reifyF_mono (Nat.le_max_left m1 (max m2 M3)) h1
    have h2' := reifyF_mono
      (Nat.le_trans (Nat.le_max_left m2 M3) (Nat.le_max_right m1 (max m2 M3))) h2
    have h3' := reifyP_mono
      (Nat.le_trans (Nat.le_max_right m2 M3) (Nat.le_max_right m1 (max m2 M3))) h3
    show (match reifyF glv (max m1 (max m2 M3)) s k with
      | none => none
      | some k' =>
        match reifyF glv (max m1 (max m2 M3)) s v with
        | none => none
        | some v' =>
          match reifyP glv (max m1 (max m2 M3)) s rest with
          | none => none
          | some rs0 => some ((k', v') :: rs0)) = some ((k, v) :: rest)
    rw [h1', h2', h3']

theorem reify_fix_aux (glv : List Term) :
    ∀ n : Nat,
      (∀ s t r, reifyF glv n s t = some r →
        ∃ m, reifyF glv m s r = some r) ∧
      (∀ s ts rs, reifyL glv n s ts = some rs →
        ∀ r ∈ rs, ∃ m, reifyF glv m s r = some r) ∧
      (∀ s kvs rs, reifyP glv n s kvs = some rs →
        ∀ p ∈ rs, (∃ m, reifyF glv m s p.1 = some p.1) ∧
          (∃ m, reifyF glv m s p.2 = some p.2)) := by
  intro n
  induction n with
  | zero =>
    refine ⟨?_, ?_, ?_⟩
    · intro s t r h; cases h
    · intro s ts rs h; cases h
    · intro s kvs rs h; cases h
  | succ n ih =>
    obtain ⟨ihA, ihB, ihC⟩ := ih
    refine ⟨?_, ?_, ?_⟩
    · intro s t r h
      cases t with
      | atom a =>
        have h' : (some (Term.atom a) : Option Term) = some r := h
        cases h'
        exact ⟨1, rfl⟩
      | var y =>
        have h' : (match walk glv s (.var y) with
          | none => none
          | some w =>
            if tbeq w (.var y) then some (.var y)
            else reifyF glv n s w) = some r := h
        cases hw : walk glv s (.var y) with
        | none => rw [hw] at h'; cases h'
        | some w =>
          rw [hw] at h'
          have h2 : (if tbeq w (.var y) then some (Term.var y)
              else reifyF glv n s w) = some r := h'
          by_cases ht : tbeq w (.var y) = true
          · rw [if_pos ht] at h2
            cases h2
            refine ⟨1, ?_⟩
            show (match walk glv s (.var y) with
              | none => none
              | some w =>
                if tbeq w (.var y) then some (.var y)
                else reifyF glv 0 s w) = some (.var y)
            rw [hw]
            show (if tbeq w (.var y) = true then some (Term.var y)
              else reifyF glv 0 s w) = some (.var y)
            rw [if_pos ht]
          · rw [if_neg ht] at h2
            exact ihA s w r h2
      | tuple ts =>
        have h' : (reifyL glv n s ts).map Term.tuple = some r := h
        cases hrl : reifyL glv n s ts with
        | none => rw [hrl] at h'; cases h'
        | some rs =>
          rw [hrl] at h'
          simp at h'
          subst h'
          obtain ⟨M, hM⟩ := reifyL_of_pointwise rs (ihB s ts rs hrl)
          refine ⟨M + 1, ?_⟩
          show (reifyL glv M s rs).map Term.tuple = some (Term.tuple rs)
          rw [hM]
          rfl
      | list ts =>
        have h' : (reifyL glv n s ts).map Term.list = some r := h
        cases hrl : reifyL glv n s ts with
        | none => rw [hrl] at h'; cases h'
        | some rs =>
          rw [hrl] at h'
          simp at h'
          subst h'
          obtain ⟨M, hM⟩ := reifyL_of_pointwise rs (ihB s ts rs hrl)
          refine ⟨M + 1, ?_⟩
          show (reifyL glv M s rs).map Term.list = some (Term.list rs)
          rw [hM]
          rfl
      | iterator hint ts =>
        have h' : (reifyL glv n s ts).map
            (fun rs => Term.iterator (some rs.length) rs) = some r := h
        cases hrl : reifyL glv n s ts with
        | none => rw [hrl] at h'; cases h'
        | some rs =>
          rw [hrl] at h'
          simp at h'
          subst h'
          obtain ⟨M, hM⟩ := reifyL_of_pointwise rs (ihB s ts rs hrl)
          refine ⟨M + 1, ?_⟩
          show (reifyL glv M s rs).map
            (fun rs' => Term.iterator (some rs'.length) rs') =
            some (Term.iterator (some rs.length) rs)
          rw [hM]
          rfl
      | set ts =>
        have h' : (reifyL glv n s ts).bind
            (fun rs => (setCtor rs).map Term.set) = some r := h
        cases hrl : reifyL glv n s ts with
        | none => rw [hrl] at h'; cases h'
        | some rs =>
          rw [hrl] at h'
          simp at h'
          obtain ⟨ds, hds, hr⟩ := h'
          subst hr
          have hptw : ∀ d ∈ ds, ∃ m, reifyF glv m s d = some d := by
            intro d hd
            rcases setCtorGo_mem rs [] ds hds d hd with h1 | h2
            · cases h1
            · exact ihB s ts rs hrl d h2
          obtain ⟨M, hM⟩ := reifyL_of_pointwise ds hptw
          obtain ⟨hnd, hha⟩ := setCtorGo_inv rs [] ds hds
            List.nodup_nil (by intro a ha; cases ha)
          have hfix : setCtorGo [] ds = some ds := by
            have := setCtorGo_fix ds [] (by simpa using hnd) hha
            simpa using this
          refine ⟨M + 1, ?_⟩
          show (reifyL glv M s ds).bind
            (fun rs' => (setCtor rs').map Term.set) = some (Term.set ds)
          rw [hM]
          show (setCtor ds).map Term.set = some (Term.set ds)
          rw [show setCtor ds = some ds from hfix]
          rfl
      | map kvs =>
        have h' : (reifyP glv n s kvs).bind
            (fun rs => (dictCtor rs).map Term.map) = some r := h
        cases hrl : reifyP glv n s kvs with
        | none => rw [hrl] at h'; cases h'
        | some rs =>
          rw [hrl] at h'
          simp at h'
          obtain ⟨ds, hds, hr⟩ := h'
          subst hr
          have hptw : ∀ p ∈ ds, (∃ m, reifyF glv m s p.1 = some p.1) ∧
              (∃ m, reifyF glv m s p.2 = some p.2) := by
            intro p hp
            obtain ⟨hk, hv⟩ := dictCtorGo_mem rs [] ds hds p hp
            constructor
            · rcases hk with h1 | h2
              · simp at h1
              · rcases List.mem_map.mp h2 with ⟨q, hq, hq1⟩
                rw [← hq1]
                exact (ihC s kvs rs hrl q hq).1
            · rcases hv with h1 | h2
              · simp at h1
              · rcases List.mem_map.mp h2 with ⟨q, hq, hq2⟩
                rw [← hq2]
                exact (ihC s kvs rs hrl q hq).2
          obtain ⟨M, hM⟩ := reifyP_of_pointwise ds hptw
          obtain ⟨hnd, hha⟩ := dictCtorGo_inv rs [] ds hds
            (by simp) (by intro p hp; cases hp)
          have hfix : dictCtorGo [] ds = some ds := by
            have := dictCtorGo_fix ds [] (by simpa using hnd) hha
            simpa using this
          refine ⟨M + 1, ?_⟩
          show (reifyP glv M s ds).bind
            (fun rs' => (dictCtor rs').map Term.map) = some (Term.map ds)
          rw [hM]
          show (dictCtor ds).map Term.map = some (Term.map ds)
          rw [show dictCtor ds = some ds from hfix]
          rfl
      | slice a b c =>
        have h' : (match reifyF glv n s a with
          | none => none
          | some a' =>
            match reifyF glv n s b with
            | none => none
            | some b' =>
              match reifyF glv n s c with
              | none => none
              | some c' => some (Term.slice a' b' c')) = some r := h
        cases ha : reifyF glv n s a with
        | none => rw [ha] at h'; cases h'
        | some a' =>
          rw [ha] at h'
          have h2 : (match reifyF glv n s b with
            | none => none
            | some b' =>
              match reifyF glv n s c with
              | none => none
              | some c' => some (Term.slice a' b' c')) = some r := h'
          cases hb : reifyF glv n s b with
          | none => rw [hb] at h2; cases h2
          | some b' =>
            rw [hb] at h2
            have h3 : (match reifyF glv n s c with
              | none => none
              | some c' => some (Term.slice a' b' c')) = some r := h2
            cases hc : reifyF glv n s c with
            | none => rw [hc] at h3; cases h3
            | some c' =>
              rw [hc] at h3
              cases h3
              obtain ⟨m1, h1⟩ := ihA s a a' ha
              obtain ⟨m2, h2'⟩ := ihA s b b' hb
              obtain ⟨m3, h3'⟩ := ihA s c c' hc
              refine ⟨max m1 (max m2 m3) + 1, ?_⟩
              have e1 := reifyF_mono (Nat.le_max_left m1 (max m2 m3)) h1
              have e2 := reifyF_mono (Nat.le_trans (Nat.le_max_left m2 m3)
                (Nat.le_max_right m1 (max m2 m3))) h2'
              have e3 := reifyF_mono (Nat.le_trans (Nat.le_max_right m2 m3)
                (Nat.le_max_right m1 (max m2 m3))) h3'
              show (match reifyF glv (max m1 (max m2 m3)) s a' with
                | none => none
                | some a0 =>
                  match reifyF glv (max m1 (max m2 m3)) s b' with
                  | none => none
                  | some b0 =>
                    match reifyF glv (max m1 (max m2 m3)) s c' with
                    | none => none
                    | some c0 => some (Term.slice a0 b0 c0)) =
                some (Term.slice a' b' c')
              rw [e1, e2, e3]
    · intro s ts rs h r hr
      cases ts with
      | nil =>
        have h' : (some [] : Option (List Term)) = some rs := h
        cases h'
        cases hr
      | cons t ts =>
        have h' : (match reifyF glv n s t with
          | none => none
          | some r =>
            match reifyL glv n s ts with
            | none => none
            | some rs => some (r :: rs)) = some rs := h
        cases h1 : reifyF glv n s t with
        | none => rw [h1] at h'; cases h'
        | some r0 =>
          rw [h1] at h'
          have h2 : (match reifyL glv n s ts with
            | none => none
            | some rs0 => some (r0 :: rs0)) = some rs := h'
          cases h3 : reifyL glv n s ts with
          | none => rw [h3] at h2; cases h2
          | some rs0 =>
            rw [h3] at h2
            cases h2
            rcases List.mem_cons.mp hr with h4 | h5
            · subst h4; exact ihA s t r h1
            · exact ihB s ts rs0 h3 r h5
    · intro s kvs rs h p hp
      cases kvs with
      | nil =>
        have h' : (some [] : Option (List (Term × Term))) = some rs := h
        cases h'
        cases hp
      | cons kv kvs =>
        obtain ⟨k, v⟩ := kv
        have h' : (match reifyF glv n s k with
          | none => none
          | some k' =>
            match reifyF glv n s v with
            | none => none
            | some v' =>
              match reifyP glv n s kvs with
              | none => none
              | some rest => some ((k', v') :: rest)) = some rs := h
        cases h1 : reifyF glv n s k with
        | none => rw [h1] at h'; cases h'
        | some k' =>
          rw [h1] at h'
          have h2 : (match reifyF glv n s v with
            | none => none
            | some v' =>
              match reifyP glv n s kvs with
              | none => none
              | some rest => some ((k', v') :: rest)) = some rs := h'
          cases h3 : reifyF glv n s v with
          | none => rw [h3] at h2; cases h2
          | some v' =>
            rw [h3] at h2
            have h4 : (match reifyP glv n s kvs with
              | none => none
              | some rest => some ((k', v') :: rest)) = some rs := h2
            cases h5 : reifyP glv n s kvs with
            | none => rw [h5] at h4; cases h4
            | some rest =>
              rw [h5] at h4
              cases h4
              rcases List.mem_cons.mp hp with h6 | h7
              · subst h6
                exact ⟨ihA s k k' h1, ihA s v v' h3⟩
              · exact ihC s kvs rest h5 p h7

/-- C6 (counterexample). The claim as literally stated is false on
iterator-containing terms: reifying a hint-less iterator over `[1]` under the
empty substitution completes and returns a fresh one-shot iterator, reifying
that result completes and returns yet another fresh iterator, and Python
`==` between the two returned iterator objects is identity-based, hence
`False` — so `reify(reify(t, s), s) == reify(t, s)` fails at this input even
though the two returned values are structurally identical. -/
theorem claim6_counterexample :
    reifyF [] 3 [] (Term.iterator none [Term.atom 1]) =
      some (Term.iterator (some 1) [Term.atom 1]) ∧
    reifyF [] 3 [] (Term.iterator (some 1) [Term.atom 1]) =
      some (Term.iterator (some 1) [Term.atom 1]) ∧
    pyEqAcrossCalls (Term.iterator (some 1) [Term.atom 1])
      (Term.iterator (some 1) [Term.atom 1]) = false :=
  ⟨rfl, rfl, rfl⟩

/-- C6 (amended). Reification is idempotent up to value equality: whenever
`reify(t, s)` completes with `r`, reifying `r` again under the same
substitution returns `r` itself, structurally (with enough fuel for both
runs).  The amendment excludes Python's identity-based `==` at iterator
positions, where each call returns a freshly allocated one-shot object —
see the counterexample. -/
theorem claim6_reify_idempotent :
    ∀ (glv : List Term) (n : Nat) (s : Subst) (t r : Term),
      reifyF glv n s t = some r →
      ∃ m, reifyF glv m s t = some r ∧ reifyF glv m s r = some r := by
  intro glv n s t r h
  obtain ⟨m2, h2⟩ := (reify_fix_aux glv n).1 s t r h
  exact ⟨max n m2, reifyF_mono (Nat.le_max_left n m2) h,
    reifyF_mono (Nat.le_max_right n m2) h2⟩

theorem claim6_reify_idempotent_witness :
    ∃ m, reifyF [] m [(Term.var 0, Term.atom 2)] (.tuple [.var 0, .var 1]) =
        some (.tuple [.atom 2, .var 1]) ∧
      reifyF [] m [(Term.var 0, Term.atom 2)] (.tuple [.atom 2, .var 1]) =
        some (.tuple [.atom 2, .var 1]) :=
  claim6_reify_idempotent [] 9 [(Term.var 0, Term.atom 2)]
    (.tuple [.var 0, .var 1]) (.tuple [.atom 2, .var 1]) rfl

/-! C5 infrastructure: on representable inputs, unifying a term with an
equal term either succeeds with the substitution unchanged or runs out of
fuel. -/

theorem wfL_mem {ts : List Term} (h : wfL ts = true) {t : Term}
    (ht : t ∈ ts) : wfT t = true := by
  induction ts with
  | nil => cases ht
  | cons a as ih =>
    have h' : (wfT a && wfL as) = true := h
    rcases List.mem_cons.mp ht with h1 | h2
    · subst h1; exact (Bool.and_eq_true_iff.mp h').1
    · exact ih (Bool.and_eq_true_iff.mp h').2 h2

theorem wfP_mem {ps : List (Term × Term)} (h : wfP ps = true)
    {p : Term × Term} (hp : p ∈ ps) : wfT p.1 = true ∧ wfT p.2 = true := by
  induction ps with
  | nil => cases hp
  | cons a as ih =>
    obtain ⟨k, v⟩ := a
    have h' : ((wfT k && wfT v) && wfP as) = true := h
    obtain ⟨h12, h3⟩ := Bool.and_eq_true_iff.mp h'
    obtain ⟨h1, h2⟩ := Bool.and_eq_true_iff.mp h12
    rcases List.mem_cons.mp hp with he | hm
    · subst he
      exact ⟨h1, h2⟩
    · exact ih h3 hm

theorem distinct_lookup {ps : List (Term × Term)}
    (h : distinctKeys ps = true) :
    ∀ p ∈ ps, slookup ps p.1 = some p.2 := by
  induction ps with
  | nil => intro p hp; cases hp
  | cons a as ih =>
    obtain ⟨k, v⟩ := a
    have h' : (!(as.any fun p => tbeq p.1 k) && distinctKeys as) = true := h
    obtain ⟨hnk, hrest⟩ := Bool.and_eq_true_iff.mp h'
    intro p hp
    rcases List.mem_cons.mp hp with h1 | h2
    · subst h1
      show (List.find? (fun q => tbeq q.1 (k, v).1) ((k, v) :: as)).map
        (·.2) = some (k, v).2
      rw [List.find?]
      rw [show tbeq (k, v).1 (k, v).1 = true from tbeq_refl _]
      rfl
    · have hne : tbeq (k, v).1 p.1 = false := by
        cases hkp : tbeq (k, v).1 p.1 with
        | false => rfl
        | true =>
          have : (k, v).1 = p.1 := (tbeq_eq _ _).mp hkp
          have hany : (as.any fun q => tbeq q.1 k) = true :=
            List.any_eq_true.mpr ⟨p, h2, by rw [← this]; exact tbeq_refl _⟩
          rw [hany] at hnk
          cases hnk
      show (List.find? (fun q => tbeq q.1 p.1) ((k, v) :: as)).map
        (·.2) = some p.2
      rw [List.find?, hne]
      exact ih hrest p h2

theorem slookup_wfS {s : Subst} (hs : wfS s = true) {k v : Term}
    (h : slookup s k = some v) : wfT v = true := by
  rw [slookup] at h
  cases hf : List.find? (fun p => tbeq p.1 k) s with
  | none => rw [hf] at h; cases h
  | some p =>
    rw [hf] at h
    cases h
    have hmem := List.mem_of_find?_eq_some hf
    rw [wfS] at hs
    exact List.all_eq_true.mp hs p hmem

theorem walkGo_wf {glv : List Term} {s : Subst} (hs : wfS s = true) :
    ∀ (f : Nat) (t w : Term), wfT t = true → walkGo glv s f t = some w →
      wfT w = true := by
  intro f
  induction f with
  | zero =>
    intro t w ht h
    rw [walkGo] at h
    by_cases hv : isvarB glv t = true
    · rw [if_pos hv] at h
      cases hl : slookup s t with
      | some t' => rw [hl] at h; cases h
      | none => rw [hl] at h; cases h; exact ht
    · rw [if_neg hv] at h; cases h; exact ht
  | succ n ih =>
    intro t w ht h
    rw [walkGo] at h
    by_cases hv : isvarB glv t = true
    · rw [if_pos hv] at h
      cases hl : slookup s t with
      | some t' =>
        rw [hl] at h
        exact ih t' w (slookup_wfS hs hl) h
      | none => rw [hl] at h; cases h; exact ht
    · rw [if_neg hv] at h; cases h; exact ht

theorem walk_wf {glv : List Term} {s : Subst} {t w : Term}
    (hs : wfS s = true) (ht : wfT t = true) (h : walk glv s t = some w) :
    wfT w = true :=
  walkGo_wf hs _ t w ht h

theorem filter_self_inter_nil :
    ∀ us : List Term,
      us.filter (fun x => !(us.any fun y => tbeq x y)) = [] := by
  intro us
  rw [List.filter_eq_nil]
  intro a ha
  simp only [Bool.not_eq_true', Bool.not_eq_false]
  exact List.any_eq_true.mpr ⟨a, ha, tbeq_refl a⟩

theorem filter_self_inter_nil' :
    ∀ us : List Term,
      us.filter (fun y => !(us.any fun x => tbeq x y)) = [] := by
  intro us
  rw [List.filter_eq_nil]
  intro a ha
  simp only [Bool.not_eq_true', Bool.not_eq_false]
  exact List.any_eq_true.mpr ⟨a, ha, tbeq_refl a⟩

theorem unify_refl_aux (glv : List Term) :
    ∀ n : Nat,
      (∀ t s, wfT t = true → wfS s = true →
        (unifyCore glv n t t s = some (.ok s) ∨
          unifyCore glv n t t s = none)) ∧
      (∀ x s, wfS s = true →
        (unifyVar glv n x (.var x) s = some (.ok s) ∨
          unifyVar glv n x (.var x) s = none)) ∧
      (∀ x w s, wfT w = true → wfS s = true →
        (unifyVarGo glv n x w w s = some (.ok s) ∨
          unifyVarGo glv n x w w s = none)) ∧
      (∀ ts s, wfL ts = true → wfS s = true →
        (unifyZip glv n ts ts s = some (.ok s) ∨
          unifyZip glv n ts ts s = none)) ∧
      (∀ ps vps s,
        (∀ p ∈ ps, slookup vps p.1 = some p.2 ∧ wfT p.2 = true) →
        wfS s = true →
        (unifyMap glv n ps vps s = some (.ok s) ∨
          unifyMap glv n ps vps s = none)) := by
  intro n
  induction n with
  | zero =>
    exact ⟨fun _ _ _ _ => Or.inr rfl, fun _ _ _ => Or.inr rfl,
      fun _ _ _ _ _ => Or.inr rfl, fun _ _ _ _ => Or.inr rfl,
      fun _ _ _ _ _ => Or.inr rfl⟩
  | succ n ih =>
    obtain ⟨ihA, ihB, ihC, ihD, ihE⟩ := ih
    refine ⟨?_, ?_, ?_, ?_, ?_⟩
    · intro t s hwf hs
      cases t with
      | var x => exact ihB x s hs
      | atom a =>
        refine Or.inl ?_
        show (some (if tbeq (Term.atom a) (Term.atom a) then UR.ok s
          else UR.fail) : Option UR) = some (.ok s)
        rw [tbeq_refl]
        rfl
      | tuple ts =>
        have e : unifyCore glv (n + 1) (.tuple ts) (.tuple ts) s =
            unifyZip glv n ts ts s := by
          show (if lenHint (.tuple ts) != lenHint (.tuple ts) then
            some UR.fail else unifyZip glv n ts ts s) = unifyZip glv n ts ts s
          simp
        rw [e]
        exact ihD ts s hwf hs
      | list ts =>
        have e : unifyCore glv (n + 1) (.list ts) (.list ts) s =
            unifyZip glv n ts ts s := by
          show (if lenHint (.list ts) != lenHint (.list ts) then
            some UR.fail else unifyZip glv n ts ts s) = unifyZip glv n ts ts s
          simp
        rw [e]
        exact ihD ts s hwf hs
      | iterator hint ts =>
        have e : unifyCore glv (n + 1) (.iterator hint ts)
            (.iterator hint ts) s = unifyZip glv n ts ts s := by
          show (if lenHint (.iterator hint ts) != lenHint (.iterator hint ts)
            then some UR.fail else unifyZip glv n ts ts s) =
            unifyZip glv n ts ts s
          simp
        rw [e]
        exact ihD ts s hwf hs
      | set us =>
        have e : unifyCore glv (n + 1) (.set us) (.set us) s =
            unifyZip glv n [] [] s := by
          show (if (us.filter (fun x => !(us.any fun y => tbeq x y))).length
                != (us.filter (fun y => !(us.any fun x => tbeq x y))).length
              then some UR.fail
              else unifyZip glv n
                (us.filter (fun x => !(us.any fun y => tbeq x y)))
                (us.filter (fun y => !(us.any fun x => tbeq x y))) s) =
            unifyZip glv n [] [] s
          rw [filter_self_inter_nil us, filter_self_inter_nil' us]
          simp
        rw [e]
        exact ihD [] s rfl hs
      | map kvs =>
        have hw' : (distinctKeys kvs && wfP kvs) = true := hwf
        obtain ⟨hdk, hwp⟩ := Bool.and_eq_true_iff.mp hw'
        have e : unifyCore glv (n + 1) (.map kvs) (.map kvs) s =
            unifyMap glv n kvs kvs s := by
          show (if kvs.length != kvs.length then some UR.fail
            else unifyMap glv n kvs kvs s) = unifyMap glv n kvs kvs s
          simp
        rw [e]
        exact ihE kvs kvs s
          (fun p hp => ⟨distinct_lookup hdk p hp, (wfP_mem hwp hp).2⟩) hs
      | slice a b c =>
        have hw' : ((wfT a && wfT b) && wfT c) = true := hwf
        obtain ⟨hab, hwc⟩ := Bool.and_eq_true_iff.mp hw'
        obtain ⟨hwa, hwb⟩ := Bool.and_eq_true_iff.mp hab
        rcases ihA a s hwa hs with ha | ha
        · rcases ihA b s hwb hs with hb | hb
          · rcases ihA c s hwc hs with hc | hc
            · refine Or.inl ?_
              show (match unifyCore glv n a a s with
                | none => none
                | some .fail => some UR.fail
                | some (.ok s1) =>
                  match unifyCore glv n b b s1 with
                  | none => none
                  | some .fail => some UR.fail
                  | some (.ok s2) => unifyCore glv n c c s2) = some (.ok s)
              rw [ha]
              show (match unifyCore glv n b b s with
                | none => none
                | some .fail => some UR.fail
                | some (.ok s2) => unifyCore glv n c c s2) = some (.ok s)
              rw [hb]
              show unifyCore glv n c c s = some (.ok s)
              exact hc
            · refine Or.inr ?_
              show (match unifyCore glv n a a s with
                | none => none
                | some .fail => some UR.fail
                | some (.ok s1) =>
                  match unifyCore glv n b b s1 with
                  | none => none
                  | some .fail => some UR.fail
                  | some (.ok s2) => unifyCore glv n c c s2) = none
              rw [ha]
              show (match unifyCore glv n b b s with
                | none => none
                | some .fail => some UR.fail
                | some (.ok s2) => unifyCore glv n c c s2) = none
              rw [hb]
              show unifyCore glv n c c s = none
              exact hc
          · refine Or.inr ?_
            show (match unifyCore glv n a a s with
              | none => none
              | some .fail => some UR.fail
              | some (.ok s1) =>
                match unifyCore glv n b b s1 with
                | none => none
                | some .fail => some UR.fail
                | some (.ok s2) => unifyCore glv n c c s2) = none
            rw [ha]
            show (match unifyCore glv n b b s with
              | none => none
              | some .fail => some UR.fail
              | some (.ok s2) => unifyCore glv n c c s2) = none
            rw [hb]
        · refine Or.inr ?_
          show (match unifyCore glv n a a s with
            | none => none
            | some .fail => some UR.fail
            | some (.ok s1) =>
              match unifyCore glv n b b s1 with
              | none => none
              | some .fail => some UR.fail
              | some (.ok s2) => unifyCore glv n c c s2) = none
          rw [ha]
    · intro x s hs
      cases hw : walk glv s (.var x) with
      | none =>
        refine Or.inr ?_
        show (match walk glv s (.var x) with
          | none => none
          | some u_w =>
            if isvarB glv (.var x) = true then
              match walk glv s (.var x) with
              | none => none
              | some v' => unifyVarGo glv n x u_w v' s
            else unifyVarGo glv n x u_w (.var x) s) = none
        rw [hw]
      | some u_w =>
        have e : unifyVar glv (n + 1) x (.var x) s =
            unifyVarGo glv n x u_w u_w s := by
          show (match walk glv s (.var x) with
            | none => none
            | some u_w =>
              if isvarB glv (.var x) = true then
                match walk glv s (.var x) with
                | none => none
                | some v' => unifyVarGo glv n x u_w v' s
              else unifyVarGo glv n x u_w (.var x) s) =
            unifyVarGo glv n x u_w u_w s
          rw [hw]
          rfl
        rw [e]
        exact ihC x u_w s
          (walk_wf hs (show wfT (.var x) = true from rfl) hw) hs
    · intro x w s hwT hs
      by_cases ht : tbeq w (.var x) = true
      · have hwx : w = Term.var x := (tbeq_eq _ _).mp ht
        subst hwx
        refine Or.inl ?_
        show (if tbeq (Term.var x) (Term.var x) = true then
          some (if tbeq (Term.var x) (Term.var x) = true then UR.ok s
            else UR.ok (assoc s (.var x) (.var x)))
          else unifyCore glv n (.var x) (.var x) s) = some (.ok s)
        rw [tbeq_refl]
        rfl
      · have e : unifyVarGo glv (n + 1) x w w s =
            unifyCore glv n w w s := by
          show (if tbeq w (.var x) = true then
            some (if tbeq (.var x) w = true then UR.ok s
              else UR.ok (assoc s (.var x) w))
            else unifyCore glv n w w s) = unifyCore glv n w w s
          rw [if_neg ht]
        rw [e]
        exact ihA w s hwT hs
    · intro ts s hwl hs
      cases ts with
      | nil => exact Or.inl rfl
      | cons t ts =>
        have hw' : (wfT t && wfL ts) = true := hwl
        obtain ⟨hwt, hwts⟩ := Bool.and_eq_true_iff.mp hw'
        rcases ihA t s hwt hs with h1 | h1
        · have e : unifyZip glv (n + 1) (t :: ts) (t :: ts) s =
              unifyZip glv n ts ts s := by
            show (match unifyCore glv n t t s with
              | none => none
              | some .fail => some UR.fail
              | some (.ok s') => unifyZip glv n ts ts s') =
              unifyZip glv n ts ts s
            rw [h1]
          rw [e]
          exact ihD ts s hwts hs
        · refine Or.inr ?_
          show (match unifyCore glv n t t s with
            | none => none
            | some .fail => some UR.fail
            | some (.ok s') => unifyZip glv n ts ts s') = none
          rw [h1]
    · intro ps vps s hcond hs
      cases ps with
      | nil => exact Or.inl rfl
      | cons p rest =>
        obtain ⟨k, uval⟩ := p
        obtain ⟨hlk, hwv⟩ := hcond (k, uval) (List.mem_cons_self _ _)
        rcases ihA uval s hwv hs with h1 | h1
        · have e : unifyMap glv (n + 1) ((k, uval) :: rest) vps s =
              unifyMap glv n rest vps s := by
            show (match slookup vps k with
              | none => some UR.fail
              | some vval =>
                match unifyCore glv n uval vval s with
                | none => none
                | some .fail => some UR.fail
                | some (.ok s') => unifyMap glv n rest vps s') =
              unifyMap glv n rest vps s
            rw [hlk]
            show (match unifyCore glv n uval uval s with
              | none => none
              | some .fail => some UR.fail
              | some (.ok s') => unifyMap glv n rest vps s') =
              unifyMap glv n rest vps s
            rw [h1]
          rw [e]
          exact ihE rest vps s
            (fun q hq => hcond q (List.mem_cons_of_mem _ hq)) hs
        · refine Or.inr ?_
          show (match slookup vps k with
            | none => some UR.fail
            | some vval =>
              match unifyCore glv n uval vval s with
              | none => none
              | some .fail => some UR.fail
              | some (.ok s') => unifyMap glv n rest vps s') = none
          rw [hlk]
          show (match unifyCore glv n uval uval s with
            | none => none
            | some .fail => some UR.fail
            | some (.ok s') => unifyMap glv n rest vps s') = none
          rw [h1]

/-- C5. On representable inputs, `unify` of two slices behaves exactly as
specified: unify start against start, then stop against stop, then step
against step, threading the substitution in that order, failing as soon as
one of the three fails, and on success returning the substitution produced
by the step unification — whenever that sequenced composition (`sliceSeq`)
produces a result, `unify` on the two slices produces the same result. -/
theorem claim5_slice_threading :
    ∀ (glv : List Term) (fuel : Nat) (a b c a' b' c' : Term) (s : Subst)
      (r : UR),
      wfT (.slice a b c) = true → wfS s = true →
      sliceSeq glv fuel a b c a' b' c' s = some r →
      unify glv (fuel + 1) (.slice a b c) (.slice a' b' c') s = some r := by
  intro glv fuel a b c a' b' c' s r hwf hs hseq
  by_cases ht : tbeq (.slice a b c) (.slice a' b' c') = true
  · have heq := (tbeq_eq _ _).mp ht
    injection heq with h1 h2 h3
    subst h1; subst h2; subst h3
    have hw' : ((wfT a && wfT b) && wfT c) = true := hwf
    obtain ⟨hab, hwc⟩ := Bool.and_eq_true_iff.mp hw'
    obtain ⟨hwa, hwb⟩ := Bool.and_eq_true_iff.mp hab
    rw [sliceSeq] at hseq
    rcases (unify_refl_aux glv fuel).1 a s hwa hs with ha | ha <;>
      rw [ha] at hseq
    · have hseq2 : (match unifyCore glv fuel b b s with
        | none => none
        | some .fail => some UR.fail
        | some (.ok s2) => unifyCore glv fuel c c s2) = some r := hseq
      rcases (unify_refl_aux glv fuel).1 b s hwb hs with hb | hb <;>
        rw [hb] at hseq2
      · have hseq3 : unifyCore glv fuel c c s = some r := hseq2
        rcases (unify_refl_aux glv fuel).1 c s hwc hs with hc | hc
        · rw [hc] at hseq3
          have hr : UR.ok s = r := Option.some.inj hseq3
          subst hr
          rw [unify, if_pos ht]
        · rw [hc] at hseq3; cases hseq3
      · cases hseq2
    · cases hseq
  · rw [unify, if_neg ht]
    exact hseq

theorem claim5_slice_threading_witness :
    unify [] 11 (.slice (.var 0) (.var 1) (.atom 3))
      (.slice (.atom 1) (.atom 2) (.atom 3)) [] =
      some (.ok [(Term.var 1, Term.atom 2), (Term.var 0, Term.atom 1)]) :=
  claim5_slice_threading [] 10 (.var 0) (.var 1) (.atom 3)
    (.atom 1) (.atom 2) (.atom 3) []
    (.ok [(Term.var 1, Term.atom 2), (Term.var 0, Term.atom 1)])
    rfl rfl rfl
